import Mathlib

/-!
Verification of the `safe-interval` scheduling library.

The library serializes invocations of a registered function ("callable")
through a per-callable FIFO queue drained by a cooperative resolve loop,
on top of the runtime's native timer primitives.

Three models are developed here.

* `CreateSafe`: a small-step transition system for a single callable
  identity registered through the singleton API.  The queue / resolve-loop /
  cancellation mechanics are translated from `src/src/index.ts`
  (`startNewSafeTimeout`, `startResolveLoopIfNeeded`, `destroy`, `setQueue`,
  `setLoop`, `registerCallable`).  The callback (`ftcb`) and queue-discard
  (`removeQueue`) features, and the queue-fed repeating timer, belong to the
  evolved `CreateSafe` API whose implementation file is absent from `src/`
  (only its tests, demo callers and README are present); those parts are
  modelled from the spec and are marked as such on each definition.

* `Registration`: a registration-level model with several callable
  identities, used for the singleton-replace and identity-resolution
  properties.

* `IntervalChain`: the older `CreateSafeInterval` /
  `CreateSafeIntervalMultiple` implementation found in `src/src/index.ts`,
  where the next native timer is armed only after the previous invocation
  has settled.
-/

namespace CreateSafe

/-- Status of one native timer instance created by a `setTimeout` /
`setInterval` call: still armed, already fired (one-shot only), or cleared
by `clearTimeout` / `clearInterval`. -/
inductive TStatus where
  | armed
  | fired
  | cleared
deriving DecidableEq, Repr

/-- One native timer instance, as armed by `startNewSafeTimeout` (one-shot)
or by the repeating scheduler.  `period` and `args` are the delay and the
argument list closed over by the timer callback (arguments are abstracted to
an opaque `Nat` token), `isInterval` tells whether the native timer repeats,
and `fires` counts how many times this instance has fired. -/
structure Timer where
  period : Nat
  args : Nat
  isInterval : Bool
  fires : Nat
  status : TStatus
deriving DecidableEq, Repr

/-- One wrapped invocation ("thunk") pushed onto the queue by a timer
firing: `id` is its global enqueue index, `tid` the index of the native
timer instance whose firing enqueued it, `args` the argument token its
closure captured. -/
structure Inv where
  id : Nat
  tid : Nat
  args : Nat
deriving DecidableEq, Repr

/-- Observable events of a run.  `enq i` records the timer callback pushing
the wrapped invocation `i` onto the queue, `start i` the resolve loop
dequeuing `i` and invoking it, `settle i v` the invocation settling with
value `v` (`none` models `undefined`, the settled value of a callable that
caught its own error and returned nothing), `cb c i v` the callback-delivery
point right after `i` settles (`c` is the callback registered at that
moment, `none` when no callback is registered so nothing is actually
invoked), and `regCb c` a registration installing callback `c`. -/
inductive Ev where
  | enq : Inv → Ev
  | start : Inv → Ev
  | settle : Inv → Option Nat → Ev
  | cb : Option Nat → Inv → Option Nat → Ev
  | regCb : Option Nat → Ev
deriving DecidableEq, Repr

/-- The per-callable slice of the schedule store, for one callable identity
registered through the singleton API, plus the native timers and the
observable trace.  `ftc`, `ftq`, `ftl` are the `FunctionsToClear`,
`FunctionsToQueue`, `FunctionsToLoop` entries for this callable from
`src/src/index.ts` (`none` models an absent key; `ftc` stores the index of
the timer its clear closure would cancel).  `ftcb` is the callback entry of
the evolved API's `FunctionsToCallbacks` map, modelled from the spec.
`running` is the invocation currently awaited by the resolve loop. -/
structure S where
  ftc : Option Nat
  ftq : Option (List Inv)
  ftl : Option Bool
  ftcb : Option Nat
  timers : List Timer
  running : Option Inv
  nextInv : Nat
  trace : List Ev
deriving DecidableEq, Repr

/-- Initial state: no keys in any map, no timers, nothing running. -/
def S.init : S :=
  { ftc := none, ftq := none, ftl := none, ftcb := none,
    timers := [], running := none, nextInv := 0, trace := [] }

/-- Effect of `clearTimeout` on timer `t`: an armed timer is cleared and can
never fire; an already fired or cleared timer is unaffected (native
`clearTimeout` is a no-op there). -/
def clearTimer (timers : List Timer) (t : Nat) : List Timer :=
  match timers.get? t with
  | some rec =>
      timers.set t { rec with status := if rec.status = .armed then .cleared else rec.status }
  | none => timers

/-- The `destroy` helper of `src/src/index.ts`: if the callable has a
`FunctionsToClear` entry, invoke its clear closure (clearing the timer it
closes over) and delete the entry; otherwise do nothing. -/
def destroy (s : S) : S :=
  match s.ftc with
  | some t => { s with timers := clearTimer s.timers t, ftc := none }
  | none => s

/-- The `setQueue` helper of `src/src/index.ts`: initialize the queue entry
to the empty queue only when the key is absent. -/
def setQueue (q : Option (List Inv)) : Option (List Inv) :=
  match q with
  | some x => some x
  | none => some []

/-- The `setLoop` helper of `src/src/index.ts`: initialize the resolve-loop
flag to `false` only when the key is absent. -/
def setLoop (b : Option Bool) : Option Bool :=
  match b with
  | some x => some x
  | none => some false

/-- Registration (`registerCallable` in `src/src/index.ts`: `destroy`, then
`setQueue`, `setLoop`, then arm a fresh native timer recorded in `ftc`).
Modelled from the spec: the evolved `CreateSafe` additionally always
installs the supplied callback (`ftcb`), supports `isInterval` (arming a
repeating native timer feeding the same queue), and, when the `removeQueue`
flag is set, discards the not-yet-drained queue before re-initializing it. -/
def registerF (s : S) (period args : Nat) (isInterval : Bool)
    (cbId : Option Nat) (removeQueue : Bool) : S :=
  let s1 := destroy s
  let ftq1 := if removeQueue then some [] else setQueue s1.ftq
  { s1 with
    ftq := ftq1,
    ftl := setLoop s1.ftl,
    ftcb := cbId,
    timers := s1.timers ++ [{ period := period, args := args, isInterval := isInterval,
                              fires := 0, status := .armed }],
    ftc := some s1.timers.length,
    trace := s1.trace ++ [Ev.regCb cbId] }

/-- The cancellation function returned to the caller (`destroy` in
`src/src/index.ts`).  Modelled from the spec: with the `removeQueue` flag
the evolved API additionally deletes the queue entry outright, discarding
any not-yet-drained thunks. -/
def cancelF (s : S) (removeQueue : Bool) : S :=
  let s1 := destroy s
  if removeQueue then { s1 with ftq := none } else s1

/-- Guard for a native timer firing: the instance exists and is armed. -/
def fireEnabled (s : S) (t : Nat) : Bool :=
  match s.timers.get? t with
  | some rec => rec.status = .armed
  | none => false

/-- A native timer firing (the `setTimeout` callback in
`startNewSafeTimeout` of `src/src/index.ts`): if the callable still has a
queue entry, push the wrapped invocation and run `startResolveLoopIfNeeded`
(which flips the loop flag from `false` to `true`); with no queue entry the
firing enqueues nothing.  Modelled from the spec: a repeating (interval)
timer stays armed after firing, feeding the same queue on every period
independently of the drain. -/
def fireF (s : S) (t : Nat) : S :=
  match s.timers.get? t with
  | none => s
  | some rec =>
    let timers' := s.timers.set t
      { rec with fires := rec.fires + 1,
                 status := if rec.isInterval then rec.status else .fired }
    match s.ftq with
    | none => { s with timers := timers' }
    | some q =>
        let i : Inv := { id := s.nextInv, tid := t, args := rec.args }
        { s with
          timers := timers',
          ftq := some (q ++ [i]),
          nextInv := s.nextInv + 1,
          ftl := match s.ftl with
            | some false => some true
            | x => x,
          trace := s.trace ++ [Ev.enq i] }

/-- One resumption of the resolve loop (the `loop` closure inside
`startResolveLoopIfNeeded` in `src/src/index.ts`), taken when the loop flag
is `true` and nothing is currently awaited: with a non-empty queue it shifts
the head thunk and starts awaiting it; otherwise it deletes the queue and
loop keys and exits. -/
def loopF (s : S) : S :=
  match s.ftq with
  | some (i :: rest) =>
      { s with ftq := some rest, running := some i, trace := s.trace ++ [Ev.start i] }
  | _ => { s with ftq := none, ftl := none }

/-- Settlement of the currently awaited invocation with value `v`.
Modelled from the spec: immediately after the settlement the currently
registered callback (if any) is invoked with the settled value, before the
loop considers the next item; the `cb` event records that delivery point
together with the callback registered at that moment. -/
def settleF (s : S) (i : Inv) (v : Option Nat) : S :=
  { s with running := none,
           trace := s.trace ++ [Ev.settle i v] ++ [Ev.cb s.ftcb i v] }

/-- Small-step relation of the system.  The parameter `nd` restricts the
run to discard-free steps when `true`: registrations and cancellations must
then have the `removeQueue` flag off. -/
inductive GStep (nd : Bool) : S → S → Prop where
  | register (s : S) (period args : Nat) (isInterval : Bool) (cbId : Option Nat)
      (rq : Bool) (h : nd = true → rq = false) :
      GStep nd s (registerF s period args isInterval cbId rq)
  | cancel (s : S) (rq : Bool) (h : nd = true → rq = false) :
      GStep nd s (cancelF s rq)
  | fire (s : S) (t : Nat) (h : fireEnabled s t = true) :
      GStep nd s (fireF s t)
  | loop (s : S) (h1 : s.ftl = some true) (h2 : s.running = none) :
      GStep nd s (loopF s)
  | settle (s : S) (i : Inv) (v : Option Nat) (h : s.running = some i) :
      GStep nd s (settleF s i v)

/-- States reachable from the initial state by arbitrary steps. -/
def Reach (s : S) : Prop :=
  Relation.ReflTransGen (GStep false) S.init s

/-- States reachable from the initial state by discard-free steps. -/
def ReachND (s : S) : Prop :=
  Relation.ReflTransGen (GStep true) S.init s

theorem GStep.mono {s s' : S} (h : GStep true s s') : GStep false s s' := by
  cases h with
  | register period args isInterval cbId rq h =>
      exact .register s period args isInterval cbId rq (fun h' => nomatch h')
  | cancel rq h => exact .cancel s rq (fun h' => nomatch h')
  | fire t h => exact .fire s t h
  | loop h1 h2 => exact .loop s h1 h2
  | settle i v h => exact .settle s i v h

theorem ReachND.toReach {s : S} (h : ReachND s) : Reach s :=
  Relation.ReflTransGen.mono (fun _ _ hs => hs.mono) h

/-- Invocations enqueued so far, in trace (= enqueue) order. -/
def enqsOf (t : List Ev) : List Inv :=
  t.filterMap fun e =>
    match e with
    | .enq i => some i
    | _ => none

/-- Invocations started by the resolve loop so far, in trace order. -/
def startsOf (t : List Ev) : List Inv :=
  t.filterMap fun e =>
    match e with
    | .start i => some i
    | _ => none

/-- Settled invocations with their settled values, in trace order. -/
def settlesOf (t : List Ev) : List (Inv × Option Nat) :=
  t.filterMap fun e =>
    match e with
    | .settle i v => some (i, v)
    | _ => none

/-- Callback-delivery points with the delivering callback, the invocation
and the settled value, in trace order. -/
def cbsOf (t : List Ev) : List (Option Nat × Inv × Option Nat) :=
  t.filterMap fun e =>
    match e with
    | .cb c i v => some (c, i, v)
    | _ => none

/-- Timer instance an event refers to, if any. -/
def tidOf (e : Ev) : Option Nat :=
  match e with
  | .enq i => some i.tid
  | .start i => some i.tid
  | .settle i _ => some i.tid
  | .cb _ i _ => some i.tid
  | .regCb _ => none

/-- Currently registered callback after processing one event. -/
def stepCb (cur : Option Nat) (e : Ev) : Option Nat :=
  match e with
  | .regCb c => c
  | _ => cur

/-- Currently registered callback after processing a trace. -/
def finalCb (cur : Option Nat) (t : List Ev) : Option Nat :=
  t.foldl stepCb cur

/-- Guard for one event: a callback-delivery point must use the currently
registered callback. -/
def cbGuard (cur : Option Nat) (e : Ev) : Bool :=
  match e with
  | .cb c _ _ => c = cur
  | _ => true

/-- Checks that every callback-delivery point in the trace used the
callback registered most recently before it (`cur` is the callback
registered at the head of the trace). -/
def cbOkB (cur : Option Nat) : List Ev → Bool
  | [] => true
  | e :: rest => cbGuard cur e && cbOkB (stepCb cur e) rest

end CreateSafe

namespace Registration

/-- A callable as seen by the registration layer: a function object with a
reference identity (`ref`, the object identity JavaScript `Map` keys use)
and a serialized source text (`srcText`, what `Function.prototype.toString`
yields), both abstracted to numbers. -/
structure RegCallable where
  ref : Nat
  srcText : Nat
deriving DecidableEq, Repr

/-- Status of a registration-level native timer: no firing is modelled at
this layer, so a timer is armed until cleared by re-registration. -/
inductive RStatus where
  | armed
  | cleared
deriving DecidableEq, Repr

/-- A native timer armed by one singleton registration, remembering which
callable identity it will invoke and with which period and arguments. -/
structure RegTimer where
  owner : RegCallable
  period : Nat
  args : Nat
  status : RStatus
deriving DecidableEq, Repr

/-- The singleton store: the `FunctionsToClear` map as an association list
from callable keys to the index of the timer their clear closure cancels,
plus every timer instance armed so far. -/
structure RegState where
  ftc : List (RegCallable × Nat)
  timers : List RegTimer
deriving DecidableEq, Repr

/-- The store before any registration. -/
def RegState.empty : RegState := { ftc := [], timers := [] }

/-- Modelled from the spec: the Identity Resolver of the evolved singleton
registration (spec section 4.1), whose implementation file is absent from
`src/`.  Given a callable, return the key to use: the callable itself when
it is already a key (reference match) or new, otherwise an existing key
whose serialized source text equals the callable's (value match), reusing
the already-registered reference as the map key. -/
def resolveKey (c : RegCallable) (st : RegState) : RegCallable :=
  if st.ftc.any (fun kv => kv.1.ref == c.ref) then c
  else
    match st.ftc.find? (fun kv => kv.1.srcText == c.srcText) with
    | some kv => kv.1
    | none => c

/-- Effect of the clear closure stored for a registration: clear the native
timer it closes over. -/
def clearTimerR (timers : List RegTimer) (t : Nat) : List RegTimer :=
  match timers.get? t with
  | some rec => timers.set t { rec with status := .cleared }
  | none => timers

/-- The `destroy` helper of `src/src/index.ts` at the registration level:
if the key has a `FunctionsToClear` entry, invoke its clear closure and
delete the entry. -/
def destroyR (k : RegCallable) (st : RegState) : RegState :=
  match st.ftc.find? (fun kv => kv.1.ref == k.ref) with
  | some kv =>
      { ftc := st.ftc.filter (fun kv2 => !(kv2.1.ref == k.ref)),
        timers := clearTimerR st.timers kv.2 }
  | none => st

/-- Singleton registration (`registerCallable` in `src/src/index.ts`):
resolve the key, destroy the key's previous schedule, then arm a fresh
native timer with the newly supplied period and arguments and store its
clear closure under the key. -/
def registerR (c : RegCallable) (period args : Nat) (st : RegState) : RegState :=
  let k := resolveKey c st
  let st1 := destroyR k st
  { ftc := st1.ftc ++ [(k, st1.timers.length)],
    timers := st1.timers ++ [{ owner := k, period := period, args := args, status := .armed }] }

/-- A sequence of singleton registrations of the same callable, each with
its own period and argument token, starting from the empty store. -/
def regRun (c : RegCallable) (reqs : List (Nat × Nat)) : RegState :=
  reqs.foldl (fun st pa => registerR c pa.1 pa.2 st) RegState.empty

/-- The timers of a store that are still armed. -/
def armedOf (st : RegState) : List RegTimer :=
  st.timers.filter (fun tm => tm.status == .armed)

end Registration

namespace IntervalChain

/-- Status of a native one-shot timer in the `CreateSafeInterval` chain of
`src/src/index.ts`. -/
inductive CStatus where
  | armed
  | fired
  | cleared
deriving DecidableEq, Repr

/-- One interval schedule created by `CreateSafeInterval` or
`CreateSafeIntervalMultiple` in `src/src/index.ts`: `timers` are the native
one-shot timers armed so far by the recursive `loop` (the last one is the
current one, whose clear closure is held by the store), `registered` is
whether the store still holds the callable (`FunctionsToClear.has`, or the
`Clear` variable being set in the `Multiple` variant), and `running` is the
index of the timer whose callback is currently awaiting the callable. -/
structure C where
  timers : List CStatus
  registered : Bool
  running : Option Nat
deriving DecidableEq, Repr

/-- State right after `startNewSafeInterval` armed the first timer. -/
def C.start : C := { timers := [.armed], registered := true, running := none }

/-- Guard for the current native timer firing. -/
def cfireEnabled (s : C) (t : Nat) : Bool :=
  match s.timers.get? t with
  | some st => st = .armed
  | none => false

/-- A native timer firing in the chain: its callback immediately begins
`await callable(...callableArgs)`. -/
def cfireF (s : C) (t : Nat) : C :=
  { s with timers := s.timers.set t .fired, running := some t }

/-- The awaited invocation settling: if the callable is still registered
(`FunctionsToClear.has(callable)`), `loop()` arms the next one-shot timer;
otherwise the chain ends. -/
def csettleF (s : C) : C :=
  { s with running := none,
           timers := if s.registered then s.timers ++ [.armed] else s.timers }

/-- The clear function returned to the caller: clear the currently armed
timer (a no-op on a fired timer) and remove the callable from the store. -/
def cclearF (s : C) : C :=
  { s with
    registered := false,
    timers :=
      match s.timers.getLast? with
      | some .armed => s.timers.dropLast ++ [.cleared]
      | _ => s.timers }

/-- Small-step relation for one interval chain. -/
inductive CStep : C → C → Prop where
  | fire (s : C) (t : Nat) (h1 : cfireEnabled s t = true) (h2 : s.running = none) :
      CStep s (cfireF s t)
  | settle (s : C) (t : Nat) (h : s.running = some t) : CStep s (csettleF s)
  | clear (s : C) : CStep s (cclearF s)

/-- States of one interval chain reachable from its creation. -/
def CReach (s : C) : Prop :=
  Relation.ReflTransGen CStep C.start s

/-- Number of armed timers of a chain state. -/
def armedCount (s : C) : Nat :=
  (s.timers.filter (fun st => st == .armed)).length

/-- Number of in-flight invocations of a chain state. -/
def runBit (s : C) : Nat :=
  match s.running with
  | some _ => 1
  | none => 0

end IntervalChain

namespace CreateSafe

theorem enqsOf_append (t1 t2 : List Ev) :
    enqsOf (t1 ++ t2) = enqsOf t1 ++ enqsOf t2 :=
  List.filterMap_append t1 t2 _

theorem startsOf_append (t1 t2 : List Ev) :
    startsOf (t1 ++ t2) = startsOf t1 ++ startsOf t2 :=
  List.filterMap_append t1 t2 _

theorem settlesOf_append (t1 t2 : List Ev) :
    settlesOf (t1 ++ t2) = settlesOf t1 ++ settlesOf t2 :=
  List.filterMap_append t1 t2 _

theorem cbsOf_append (t1 t2 : List Ev) :
    cbsOf (t1 ++ t2) = cbsOf t1 ++ cbsOf t2 :=
  List.filterMap_append t1 t2 _

theorem mem_of_mem_enqsOf {t : List Ev} {i : Inv} (h : i ∈ enqsOf t) :
    Ev.enq i ∈ t := by
  rcases List.mem_filterMap.mp h with ⟨e, he, hfe⟩
  cases e <;> simp_all

theorem mem_enqsOf_of_mem {t : List Ev} {i : Inv} (h : Ev.enq i ∈ t) :
    i ∈ enqsOf t :=
  List.mem_filterMap.mpr ⟨Ev.enq i, h, rfl⟩

theorem mem_of_mem_startsOf {t : List Ev} {j : Inv} (h : j ∈ startsOf t) :
    Ev.start j ∈ t := by
  rcases List.mem_filterMap.mp h with ⟨e, he, hfe⟩
  cases e <;> simp_all

theorem mem_startsOf_of_mem {t : List Ev} {j : Inv} (h : Ev.start j ∈ t) :
    j ∈ startsOf t :=
  List.mem_filterMap.mpr ⟨Ev.start j, h, rfl⟩

theorem mem_of_mem_settlesOf {t : List Ev} {i : Inv} {v : Option Nat}
    (h : (i, v) ∈ settlesOf t) : Ev.settle i v ∈ t := by
  rcases List.mem_filterMap.mp h with ⟨e, he, hfe⟩
  cases e <;> simp_all

theorem mem_of_mem_cbsOf {t : List Ev} {c : Option Nat} {i : Inv} {v : Option Nat}
    (h : (c, i, v) ∈ cbsOf t) : Ev.cb c i v ∈ t := by
  rcases List.mem_filterMap.mp h with ⟨e, he, hfe⟩
  cases e <;> simp_all

theorem finalCb_append (cur : Option Nat) (t1 t2 : List Ev) :
    finalCb cur (t1 ++ t2) = finalCb (finalCb cur t1) t2 :=
  List.foldl_append _ _ t1 t2

theorem finalCb_cons (cur : Option Nat) (e : Ev) (t : List Ev) :
    finalCb cur (e :: t) = finalCb (stepCb cur e) t := by
  simp [finalCb]

theorem cbOkB_append {cur : Option Nat} {t1 t2 : List Ev} :
    cbOkB cur (t1 ++ t2) = (cbOkB cur t1 && cbOkB (finalCb cur t1) t2) := by
  induction t1 generalizing cur with
  | nil => simp [cbOkB, finalCb]
  | cons e rest ih =>
      simp only [List.cons_append, cbOkB, List.append_eq, ih, finalCb_cons, Bool.and_assoc]

theorem clearTimer_length (l : List Timer) (u : Nat) :
    (clearTimer l u).length = l.length := by
  unfold clearTimer
  cases h : l.get? u <;> simp

theorem clearTimer_get? (l : List Timer) (u t : Nat) :
    (clearTimer l u).get? t =
      (l.get? t).map fun rec =>
        if t = u then { rec with status := if rec.status = .armed then .cleared else rec.status }
        else rec := by
  unfold clearTimer
  cases hu : l.get? u with
  | none =>
      cases ht : l.get? t with
      | none => simp
      | some rec =>
          have : t ≠ u := by
            intro h
            rw [h, hu] at ht
            exact absurd ht (by simp)
          simp [this]
  | some rec =>
      obtain ⟨hlt, -⟩ := List.get?_eq_some.mp hu
      rw [List.get?_set_of_lt' _ _ hlt]
      by_cases htu : t = u
      · subst htu
        rw [if_pos rfl, hu]
        simp
      · rw [if_neg (Ne.symm htu)]
        cases ht : l.get? t <;> simp [htu]

theorem clearTimer_fires (l : List Timer) (u t : Nat) :
    ((clearTimer l u).get? t).map Timer.fires = (l.get? t).map Timer.fires := by
  rw [clearTimer_get?]
  cases h : l.get? t with
  | none => rfl
  | some rec => by_cases htu : t = u <;> simp [htu]

theorem clearTimer_get?_of_cleared {l : List Timer} {u t : Nat} {rec : Timer}
    (h : l.get? t = some rec) (hc : rec.status = .cleared) :
    (clearTimer l u).get? t = some rec := by
  rw [clearTimer_get?, h]
  by_cases htu : t = u
  · subst htu
    cases rec
    simp_all
  · simp [htu]

end CreateSafe

namespace CreateSafe

theorem destroy_ftq (s : S) : (destroy s).ftq = s.ftq := by
  cases h : s.ftc <;> simp [destroy, h]

theorem destroy_ftl (s : S) : (destroy s).ftl = s.ftl := by
  cases h : s.ftc <;> simp [destroy, h]

theorem destroy_ftcb (s : S) : (destroy s).ftcb = s.ftcb := by
  cases h : s.ftc <;> simp [destroy, h]

theorem destroy_running (s : S) : (destroy s).running = s.running := by
  cases h : s.ftc <;> simp [destroy, h]

theorem destroy_nextInv (s : S) : (destroy s).nextInv = s.nextInv := by
  cases h : s.ftc <;> simp [destroy, h]

theorem destroy_trace (s : S) : (destroy s).trace = s.trace := by
  cases h : s.ftc <;> simp [destroy, h]

theorem destroy_ftc (s : S) : (destroy s).ftc = none := by
  cases h : s.ftc <;> simp [destroy, h]

theorem destroy_timers_length (s : S) :
    (destroy s).timers.length = s.timers.length := by
  cases h : s.ftc <;> simp [destroy, h, clearTimer_length]

theorem destroy_timers_fires (s : S) (t : Nat) :
    ((destroy s).timers.get? t).map Timer.fires = (s.timers.get? t).map Timer.fires := by
  cases h : s.ftc with
  | none => simp only [destroy, h]
  | some u =>
      simp only [destroy, h]
      exact clearTimer_fires s.timers u t

theorem destroy_timers_of_cleared {s : S} {t : Nat} {rec : Timer}
    (hget : s.timers.get? t = some rec) (hc : rec.status = .cleared) :
    (destroy s).timers.get? t = some rec := by
  cases h : s.ftc with
  | none =>
      simp only [destroy, h]
      exact hget
  | some u =>
      simp only [destroy, h]
      exact clearTimer_get?_of_cleared hget hc

theorem registerF_ftq (s : S) (p a : Nat) (ii : Bool) (cb : Option Nat) (rq : Bool) :
    (registerF s p a ii cb rq).ftq = if rq then some [] else setQueue s.ftq := by
  simp [registerF, destroy_ftq]

theorem registerF_ftl (s : S) (p a : Nat) (ii : Bool) (cb : Option Nat) (rq : Bool) :
    (registerF s p a ii cb rq).ftl = setLoop s.ftl := by
  simp [registerF, destroy_ftl]

theorem registerF_ftcb (s : S) (p a : Nat) (ii : Bool) (cb : Option Nat) (rq : Bool) :
    (registerF s p a ii cb rq).ftcb = cb := by
  simp [registerF]

theorem registerF_running (s : S) (p a : Nat) (ii : Bool) (cb : Option Nat) (rq : Bool) :
    (registerF s p a ii cb rq).running = s.running := by
  simp [registerF, destroy_running]

theorem registerF_nextInv (s : S) (p a : Nat) (ii : Bool) (cb : Option Nat) (rq : Bool) :
    (registerF s p a ii cb rq).nextInv = s.nextInv := by
  simp [registerF, destroy_nextInv]

theorem registerF_trace (s : S) (p a : Nat) (ii : Bool) (cb : Option Nat) (rq : Bool) :
    (registerF s p a ii cb rq).trace = s.trace ++ [Ev.regCb cb] := by
  simp [registerF, destroy_trace]

theorem registerF_ftc (s : S) (p a : Nat) (ii : Bool) (cb : Option Nat) (rq : Bool) :
    (registerF s p a ii cb rq).ftc = some s.timers.length := by
  simp [registerF, destroy_timers_length]

theorem registerF_timers_fires (s : S) (p a : Nat) (ii : Bool) (cb : Option Nat)
    (rq : Bool) {t : Nat} {rec : Timer} (hget : s.timers.get? t = some rec) :
    ∃ rec', (registerF s p a ii cb rq).timers.get? t = some rec' ∧ rec'.fires = rec.fires := by
  have hlt : t < s.timers.length := (List.get?_eq_some.mp hget).1
  have hd := destroy_timers_fires s t
  rw [hget] at hd
  cases hd' : (destroy s).timers.get? t with
  | none =>
      rw [hd'] at hd
      exact absurd hd.symm (by simp)
  | some rec2 =>
      refine ⟨rec2, ?_, ?_⟩
      · have hlt2 : t < (destroy s).timers.length := (List.get?_eq_some.mp hd').1
        simp only [registerF]
        rw [List.get?_append hlt2, hd']
      · rw [hd'] at hd
        simp only [Option.map_some'] at hd
        exact Option.some.inj hd

theorem registerF_timers_of_cleared {s : S} (p a : Nat) (ii : Bool) (cb : Option Nat)
    (rq : Bool) {t : Nat} {rec : Timer}
    (hget : s.timers.get? t = some rec) (hc : rec.status = .cleared) :
    (registerF s p a ii cb rq).timers.get? t = some rec := by
  have hd := destroy_timers_of_cleared hget hc
  have hlt2 : t < (destroy s).timers.length := (List.get?_eq_some.mp hd).1
  simp only [registerF]
  rw [List.get?_append hlt2, hd]

theorem cancelF_ftq (s : S) (rq : Bool) :
    (cancelF s rq).ftq = if rq then none else s.ftq := by
  cases rq <;> simp [cancelF, destroy_ftq]

theorem cancelF_ftl (s : S) (rq : Bool) : (cancelF s rq).ftl = s.ftl := by
  cases rq <;> simp [cancelF, destroy_ftl]

theorem cancelF_ftcb (s : S) (rq : Bool) : (cancelF s rq).ftcb = s.ftcb := by
  cases rq <;> simp [cancelF, destroy_ftcb]

theorem cancelF_running (s : S) (rq : Bool) : (cancelF s rq).running = s.running := by
  cases rq <;> simp [cancelF, destroy_running]

theorem cancelF_nextInv (s : S) (rq : Bool) : (cancelF s rq).nextInv = s.nextInv := by
  cases rq <;> simp [cancelF, destroy_nextInv]

theorem cancelF_trace (s : S) (rq : Bool) : (cancelF s rq).trace = s.trace := by
  cases rq <;> simp [cancelF, destroy_trace]

theorem cancelF_timers (s : S) (rq : Bool) :
    (cancelF s rq).timers = (destroy s).timers := by
  cases rq <;> simp [cancelF]

theorem cancelF_timers_fires (s : S) (rq : Bool) (t : Nat) :
    ((cancelF s rq).timers.get? t).map Timer.fires = (s.timers.get? t).map Timer.fires := by
  rw [cancelF_timers]
  exact destroy_timers_fires s t

theorem cancelF_timers_of_cleared {s : S} (rq : Bool) {t : Nat} {rec : Timer}
    (hget : s.timers.get? t = some rec) (hc : rec.status = .cleared) :
    (cancelF s rq).timers.get? t = some rec := by
  rw [cancelF_timers]
  exact destroy_timers_of_cleared hget hc

end CreateSafe

namespace CreateSafe

@[simp] theorem enqsOf_nil : enqsOf [] = [] := rfl
@[simp] theorem startsOf_nil : startsOf [] = [] := rfl
@[simp] theorem settlesOf_nil : settlesOf [] = [] := rfl
@[simp] theorem cbsOf_nil : cbsOf [] = [] := rfl

@[simp] theorem enqsOf_enq (i : Inv) : enqsOf [Ev.enq i] = [i] := rfl
@[simp] theorem enqsOf_start (i : Inv) : enqsOf [Ev.start i] = [] := rfl
@[simp] theorem enqsOf_settle (i : Inv) (v : Option Nat) : enqsOf [Ev.settle i v] = [] := rfl
@[simp] theorem enqsOf_cb (c : Option Nat) (i : Inv) (v : Option Nat) :
    enqsOf [Ev.cb c i v] = [] := rfl
@[simp] theorem enqsOf_regCb (c : Option Nat) : enqsOf [Ev.regCb c] = [] := rfl

@[simp] theorem startsOf_enq (i : Inv) : startsOf [Ev.enq i] = [] := rfl
@[simp] theorem startsOf_start (i : Inv) : startsOf [Ev.start i] = [i] := rfl
@[simp] theorem startsOf_settle (i : Inv) (v : Option Nat) : startsOf [Ev.settle i v] = [] := rfl
@[simp] theorem startsOf_cb (c : Option Nat) (i : Inv) (v : Option Nat) :
    startsOf [Ev.cb c i v] = [] := rfl
@[simp] theorem startsOf_regCb (c : Option Nat) : startsOf [Ev.regCb c] = [] := rfl

@[simp] theorem settlesOf_enq (i : Inv) : settlesOf [Ev.enq i] = [] := rfl
@[simp] theorem settlesOf_start (i : Inv) : settlesOf [Ev.start i] = [] := rfl
@[simp] theorem settlesOf_settle (i : Inv) (v : Option Nat) :
    settlesOf [Ev.settle i v] = [(i, v)] := rfl
@[simp] theorem settlesOf_cb (c : Option Nat) (i : Inv) (v : Option Nat) :
    settlesOf [Ev.cb c i v] = [] := rfl
@[simp] theorem settlesOf_regCb (c : Option Nat) : settlesOf [Ev.regCb c] = [] := rfl

@[simp] theorem cbsOf_enq (i : Inv) : cbsOf [Ev.enq i] = [] := rfl
@[simp] theorem cbsOf_start (i : Inv) : cbsOf [Ev.start i] = [] := rfl
@[simp] theorem cbsOf_settle (i : Inv) (v : Option Nat) : cbsOf [Ev.settle i v] = [] := rfl
@[simp] theorem cbsOf_cb (c : Option Nat) (i : Inv) (v : Option Nat) :
    cbsOf [Ev.cb c i v] = [(c, i, v)] := rfl
@[simp] theorem cbsOf_regCb (c : Option Nat) : cbsOf [Ev.regCb c] = [] := rfl

attribute [simp] enqsOf_append startsOf_append settlesOf_append cbsOf_append

/-- The key invariant bundle preserved by every step of the system. -/
structure Good (s : S) : Prop where
  g2 : startsOf s.trace = (settlesOf s.trace).map Prod.fst ++ s.running.toList
  g5 : (enqsOf s.trace).map Inv.id = List.range s.nextInv
  g6 : ∀ e ∈ s.trace, ∀ t, tidOf e = some t →
        ∃ rec, s.timers.get? t = some rec ∧ 0 < rec.fires
  g7 : ∀ q, s.ftq = some q → q ≠ [] → s.ftl = some true
  g8 : s.ftq.isSome → s.ftl.isSome
  g9a : cbOkB none s.trace = true
  g9b : finalCb none s.trace = s.ftcb
  g10 : (cbsOf s.trace).map (fun x => (x.2.1, x.2.2)) = settlesOf s.trace
  g14q : ∀ q, s.ftq = some q → ∀ i ∈ q, Ev.enq i ∈ s.trace
  g14r : ∀ i, s.running = some i → Ev.enq i ∈ s.trace

theorem good_init : Good S.init := by
  constructor <;> simp [S.init, cbOkB, finalCb, Option.toList]

theorem good_register {s : S} (p a : Nat) (ii : Bool) (cb : Option Nat) (rq : Bool)
    (hg : Good s) : Good (registerF s p a ii cb rq) := by
  constructor
  · rw [registerF_trace, registerF_running]
    simp [hg.g2]
  · rw [registerF_trace, registerF_nextInv]
    simp [hg.g5]
  · intro e he t ht
    rw [registerF_trace] at he
    rcases List.mem_append.mp he with he | he
    · obtain ⟨rec, hrec, hf⟩ := hg.g6 e he t ht
      obtain ⟨rec', hrec', hf'⟩ := registerF_timers_fires s p a ii cb rq hrec
      exact ⟨rec', hrec', hf' ▸ hf⟩
    · simp at he
      subst he
      simp [tidOf] at ht
  · intro q hq hne
    rw [registerF_ftq] at hq
    rw [registerF_ftl]
    by_cases hrq : rq
    · rw [if_pos hrq] at hq
      exact absurd (Option.some.inj hq) (fun h => hne h.symm)
    · rw [if_neg hrq] at hq
      cases hsq : s.ftq with
      | none =>
          rw [hsq] at hq
          simp [setQueue] at hq
          exact absurd hq hne
      | some q0 =>
          rw [hsq] at hq
          simp [setQueue] at hq
          subst hq
          have := hg.g7 q0 hsq hne
          rw [this]
          simp [setLoop]
  · intro _
    rw [registerF_ftl]
    cases hsl : s.ftl <;> simp [setLoop]
  · rw [registerF_trace, cbOkB_append, hg.g9a]
    simp [cbOkB, cbGuard, stepCb]
  · rw [registerF_trace, registerF_ftcb, finalCb_append, finalCb, List.foldl_cons, stepCb]
    rfl
  · rw [registerF_trace]
    simp [hg.g10]
  · intro q hq i hi
    rw [registerF_trace]
    rw [registerF_ftq] at hq
    apply List.mem_append_left
    by_cases hrq : rq
    · rw [if_pos hrq] at hq
      cases hq
      simp at hi
    · rw [if_neg hrq] at hq
      cases hsq : s.ftq with
      | none =>
          rw [hsq] at hq
          simp [setQueue] at hq
          subst hq
          simp at hi
      | some q0 =>
          rw [hsq] at hq
          simp [setQueue] at hq
          subst hq
          exact hg.g14q q0 hsq i hi
  · intro i hi
    rw [registerF_trace]
    rw [registerF_running] at hi
    exact List.mem_append_left _ (hg.g14r i hi)

theorem good_cancel {s : S} (rq : Bool) (hg : Good s) : Good (cancelF s rq) := by
  constructor
  · rw [cancelF_trace, cancelF_running]
    exact hg.g2
  · rw [cancelF_trace, cancelF_nextInv]
    exact hg.g5
  · intro e he t ht
    rw [cancelF_trace] at he
    obtain ⟨rec, hrec, hf⟩ := hg.g6 e he t ht
    have := cancelF_timers_fires s rq t
    rw [hrec] at this
    cases hrec' : (cancelF s rq).timers.get? t with
    | none =>
        rw [hrec'] at this
        exact absurd this.symm (by simp)
    | some rec' =>
        rw [hrec'] at this
        simp only [Option.map_some'] at this
        exact ⟨rec', rfl, (Option.some.inj this) ▸ hf⟩
  · intro q hq hne
    rw [cancelF_ftq] at hq
    rw [cancelF_ftl]
    by_cases hrq : rq
    · rw [if_pos hrq] at hq
      cases hq
    · rw [if_neg hrq] at hq
      exact hg.g7 q hq hne
  · intro hs
    rw [cancelF_ftq] at hs
    rw [cancelF_ftl]
    by_cases hrq : rq
    · rw [if_pos hrq] at hs
      simp at hs
    · rw [if_neg hrq] at hs
      exact hg.g8 hs
  · rw [cancelF_trace]
    exact hg.g9a
  · rw [cancelF_trace, cancelF_ftcb]
    exact hg.g9b
  · rw [cancelF_trace]
    exact hg.g10
  · intro q hq i hi
    rw [cancelF_trace]
    rw [cancelF_ftq] at hq
    by_cases hrq : rq
    · rw [if_pos hrq] at hq
      cases hq
    · rw [if_neg hrq] at hq
      exact hg.g14q q hq i hi
  · intro i hi
    rw [cancelF_trace]
    rw [cancelF_running] at hi
    exact hg.g14r i hi

end CreateSafe


namespace CreateSafe

theorem fireEnabled_iff {s : S} {t : Nat} :
    fireEnabled s t = true ↔ ∃ rec, s.timers.get? t = some rec ∧ rec.status = .armed := by
  unfold fireEnabled
  cases h : s.timers.get? t <;> simp

/-- The updated record of a timer that has just fired: the fire counter is
bumped and a one-shot timer becomes spent. -/
def bump (rec : Timer) : Timer :=
  { rec with fires := rec.fires + 1,
             status := if rec.isInterval then rec.status else .fired }

@[simp] theorem bump_fires (rec : Timer) : (bump rec).fires = rec.fires + 1 := rfl

@[simp] theorem enqsOf_cons_enq (i : Inv) (t : List Ev) :
    enqsOf (Ev.enq i :: t) = i :: enqsOf t := rfl
@[simp] theorem enqsOf_cons_start (i : Inv) (t : List Ev) :
    enqsOf (Ev.start i :: t) = enqsOf t := rfl
@[simp] theorem enqsOf_cons_settle (i : Inv) (v : Option Nat) (t : List Ev) :
    enqsOf (Ev.settle i v :: t) = enqsOf t := rfl
@[simp] theorem enqsOf_cons_cb (c : Option Nat) (i : Inv) (v : Option Nat) (t : List Ev) :
    enqsOf (Ev.cb c i v :: t) = enqsOf t := rfl
@[simp] theorem enqsOf_cons_regCb (c : Option Nat) (t : List Ev) :
    enqsOf (Ev.regCb c :: t) = enqsOf t := rfl

@[simp] theorem startsOf_cons_enq (i : Inv) (t : List Ev) :
    startsOf (Ev.enq i :: t) = startsOf t := rfl
@[simp] theorem startsOf_cons_start (i : Inv) (t : List Ev) :
    startsOf (Ev.start i :: t) = i :: startsOf t := rfl
@[simp] theorem startsOf_cons_settle (i : Inv) (v : Option Nat) (t : List Ev) :
    startsOf (Ev.settle i v :: t) = startsOf t := rfl
@[simp] theorem startsOf_cons_cb (c : Option Nat) (i : Inv) (v : Option Nat) (t : List Ev) :
    startsOf (Ev.cb c i v :: t) = startsOf t := rfl
@[simp] theorem startsOf_cons_regCb (c : Option Nat) (t : List Ev) :
    startsOf (Ev.regCb c :: t) = startsOf t := rfl

@[simp] theorem settlesOf_cons_enq (i : Inv) (t : List Ev) :
    settlesOf (Ev.enq i :: t) = settlesOf t := rfl
@[simp] theorem settlesOf_cons_start (i : Inv) (t : List Ev) :
    settlesOf (Ev.start i :: t) = settlesOf t := rfl
@[simp] theorem settlesOf_cons_settle (i : Inv) (v : Option Nat) (t : List Ev) :
    settlesOf (Ev.settle i v :: t) = (i, v) :: settlesOf t := rfl
@[simp] theorem settlesOf_cons_cb (c : Option Nat) (i : Inv) (v : Option Nat) (t : List Ev) :
    settlesOf (Ev.cb c i v :: t) = settlesOf t := rfl
@[simp] theorem settlesOf_cons_regCb (c : Option Nat) (t : List Ev) :
    settlesOf (Ev.regCb c :: t) = settlesOf t := rfl

@[simp] theorem cbsOf_cons_enq (i : Inv) (t : List Ev) :
    cbsOf (Ev.enq i :: t) = cbsOf t := rfl
@[simp] theorem cbsOf_cons_start (i : Inv) (t : List Ev) :
    cbsOf (Ev.start i :: t) = cbsOf t := rfl
@[simp] theorem cbsOf_cons_settle (i : Inv) (v : Option Nat) (t : List Ev) :
    cbsOf (Ev.settle i v :: t) = cbsOf t := rfl
@[simp] theorem cbsOf_cons_cb (c : Option Nat) (i : Inv) (v : Option Nat) (t : List Ev) :
    cbsOf (Ev.cb c i v :: t) = (c, i, v) :: cbsOf t := rfl
@[simp] theorem cbsOf_cons_regCb (c : Option Nat) (t : List Ev) :
    cbsOf (Ev.regCb c :: t) = cbsOf t := rfl

theorem set_fires_mono {l : List Timer} {t : Nat} {rec : Timer} (hget : l.get? t = some rec)
    {u : Nat} {rec2 : Timer} (h2 : l.get? u = some rec2) (newRec : Timer)
    (hf : rec.fires ≤ newRec.fires) :
    ∃ rec', (l.set t newRec).get? u = some rec' ∧ rec2.fires ≤ rec'.fires := by
  by_cases hu : u = t
  · subst hu
    obtain ⟨hlt, -⟩ := List.get?_eq_some.mp hget
    refine ⟨newRec, ?_, ?_⟩
    · rw [List.get?_set_of_lt' _ _ hlt, if_pos rfl]
    · rw [hget] at h2
      exact (Option.some.inj h2) ▸ hf
  · rw [List.get?_set_ne _ _ (fun hh => hu hh.symm)]
    exact ⟨rec2, h2, le_refl _⟩

theorem good_fire {s : S} (t : Nat) (h : fireEnabled s t = true) (hg : Good s) :
    Good (fireF s t) := by
  obtain ⟨rec, hget, harm⟩ := fireEnabled_iff.mp h
  cases hq : s.ftq with
  | none =>
      have hs' : fireF s t = { s with timers := s.timers.set t (bump rec) } := by
        simp only [fireF, bump, hget, hq]
      rw [hs']
      constructor
      · exact hg.g2
      · exact hg.g5
      · intro e he u hu
        obtain ⟨rec2, hrec2, hf2⟩ := hg.g6 e he u hu
        obtain ⟨rec2x, hrec2x, hle⟩ := set_fires_mono hget hrec2 (bump rec) (by simp)
        exact ⟨rec2x, hrec2x, Nat.lt_of_lt_of_le hf2 hle⟩
      · exact hg.g7
      · exact hg.g8
      · exact hg.g9a
      · exact hg.g9b
      · exact hg.g10
      · exact hg.g14q
      · exact hg.g14r
  | some q =>
      have hlift : s.ftl.isSome := hg.g8 (by rw [hq]; rfl)
      have hs' : fireF s t =
          { s with
            timers := s.timers.set t (bump rec),
            ftq := some (q ++ [{ id := s.nextInv, tid := t, args := rec.args }]),
            nextInv := s.nextInv + 1,
            ftl := (match s.ftl with
              | some false => some true
              | x => x),
            trace := s.trace ++ [Ev.enq { id := s.nextInv, tid := t, args := rec.args }] } := by
        simp only [fireF, bump, hget, hq]
      have hftl : (match s.ftl with
          | some false => some true
          | x => x) = some true := by
        cases hsl : s.ftl with
        | none => rw [hsl] at hlift; simp at hlift
        | some b => cases b <;> rfl
      rw [hs']
      constructor
      · simp [hg.g2]
      · simp [hg.g5, List.range_succ]
      · intro e he u hu
        simp only [List.mem_append] at he
        rcases he with he | he
        · obtain ⟨rec2, hrec2, hf2⟩ := hg.g6 e he u hu
          obtain ⟨rec2x, hrec2x, hle⟩ := set_fires_mono hget hrec2 (bump rec) (by simp)
          exact ⟨rec2x, hrec2x, Nat.lt_of_lt_of_le hf2 hle⟩
        · simp only [List.mem_singleton] at he
          subst he
          simp only [tidOf] at hu
          obtain ⟨hlt, -⟩ := List.get?_eq_some.mp hget
          cases hu
          refine ⟨bump rec, ?_, ?_⟩
          · show (s.timers.set t (bump rec)).get? t = some (bump rec)
            rw [List.get?_set_of_lt' _ _ hlt, if_pos rfl]
          · simp
      · intro q2 hq2 hne
        simp [hftl]
      · intro _
        simp [hftl]
      · rw [cbOkB_append, hg.g9a]
        simp [cbOkB, cbGuard, stepCb]
      · rw [finalCb_append, hg.g9b]
        rfl
      · simp [hg.g10]
      · intro q2 hq2 i hi
        simp only [Option.some.injEq] at hq2
        subst hq2
        simp only [List.mem_append, List.mem_singleton] at hi
        rcases hi with hi | hi
        · exact List.mem_append_left _ (hg.g14q q hq i hi)
        · subst hi
          exact List.mem_append_right _ (by simp)
      · intro i hi
        exact List.mem_append_left _ (hg.g14r i hi)

theorem good_loop {s : S} (h1 : s.ftl = some true) (h2 : s.running = none) (hg : Good s) :
    Good (loopF s) := by
  cases hq : s.ftq with
  | some q =>
    cases q with
    | cons i rest =>
        have hs' : loopF s =
            { s with ftq := some rest, running := some i,
                     trace := s.trace ++ [Ev.start i] } := by
          simp only [loopF, hq]
        have henq : Ev.enq i ∈ s.trace := hg.g14q _ hq i (by simp)
        rw [hs']
        constructor
        · have hg2 := hg.g2
          rw [h2] at hg2
          simp only [Option.toList_none, List.append_nil] at hg2
          simp [hg2]
        · simp [hg.g5]
        · intro e he u hu
          simp only [List.mem_append] at he
          rcases he with he | he
          · exact hg.g6 e he u hu
          · simp only [List.mem_singleton] at he
            subst he
            simp only [tidOf] at hu
            exact hg.g6 _ henq u (by simpa [tidOf] using hu)
        · intro q2 hq2 hne
          exact h1
        · intro _
          rw [h1]
          rfl
        · rw [cbOkB_append, hg.g9a]
          simp [cbOkB, cbGuard, stepCb]
        · rw [finalCb_append, hg.g9b]
          rfl
        · simp [hg.g10]
        · intro q2 hq2 j hj
          simp only [Option.some.injEq] at hq2
          subst hq2
          exact List.mem_append_left _ (hg.g14q _ hq j (List.mem_cons_of_mem i hj))
        · intro j hj
          simp only [Option.some.injEq] at hj
          subst hj
          exact List.mem_append_left _ henq
    | nil =>
        have hs' : loopF s = { s with ftq := none, ftl := none } := by
          simp only [loopF, hq]
        rw [hs']
        constructor
        · exact hg.g2
        · exact hg.g5
        · exact hg.g6
        · intro q2 hq2 hne
          cases hq2
        · intro hx
          simp at hx
        · exact hg.g9a
        · exact hg.g9b
        · exact hg.g10
        · intro q2 hq2 j hj
          cases hq2
        · exact hg.g14r
  | none =>
      have hs' : loopF s = { s with ftq := none, ftl := none } := by
        simp only [loopF, hq]
      rw [hs']
      constructor
      · exact hg.g2
      · exact hg.g5
      · exact hg.g6
      · intro q2 hq2 hne
        cases hq2
      · intro hx
        simp at hx
      · exact hg.g9a
      · exact hg.g9b
      · exact hg.g10
      · intro q2 hq2 j hj
        cases hq2
      · exact hg.g14r

theorem good_settle {s : S} (i : Inv) (v : Option Nat) (h : s.running = some i)
    (hg : Good s) : Good (settleF s i v) := by
  have henq : Ev.enq i ∈ s.trace := hg.g14r i h
  have hg2 := hg.g2
  rw [h] at hg2
  constructor
  · simp only [settleF]
    simp [hg2]
  · simp only [settleF]
    simp [hg.g5]
  · intro e he u hu
    simp only [settleF, List.mem_append] at he
    rcases he with (he | he) | he
    · exact hg.g6 e he u hu
    · simp only [List.mem_singleton] at he
      subst he
      simp only [tidOf] at hu
      exact hg.g6 _ henq u (by simpa [tidOf] using hu)
    · simp only [List.mem_singleton] at he
      subst he
      simp only [tidOf] at hu
      exact hg.g6 _ henq u (by simpa [tidOf] using hu)
  · exact hg.g7
  · exact hg.g8
  · simp only [settleF]
    rw [cbOkB_append, cbOkB_append, hg.g9a, finalCb_append, hg.g9b]
    simp [cbOkB, cbGuard, stepCb, finalCb]
  · simp only [settleF]
    rw [finalCb_append, finalCb_append, hg.g9b]
    rfl
  · simp only [settleF]
    simp [hg.g10]
  · intro q hq j hj
    simp only [settleF]
    exact List.mem_append_left _ (List.mem_append_left _ (hg.g14q q hq j hj))
  · intro j hj
    simp only [settleF] at hj
    cases hj

theorem good_step {b : Bool} {s s' : S} (h : GStep b s s') (hg : Good s) : Good s' := by
  cases h with
  | register period args isInterval cbId rq hnd => exact good_register _ _ _ _ _ hg
  | cancel rq hnd => exact good_cancel _ hg
  | fire t ht => exact good_fire t ht hg
  | loop h1 h2 => exact good_loop h1 h2 hg
  | settle i v hr => exact good_settle i v hr hg

theorem good_reach {s : S} (h : Reach s) : Good s := by
  induction h with
  | refl => exact good_init
  | tail hab hbc => exact good_step hbc (by assumption)

end CreateSafe

namespace CreateSafe

theorem id_eq_of_get? {l : List Inv} {n k : Nat} {x : Inv} (h5 : l.map Inv.id = List.range n)
    (h : l.get? k = some x) : x.id = k := by
  have hm : (l.map Inv.id).get? k = some x.id := by
    rw [List.get?_map, h]
    rfl
  rw [h5] at hm
  have hk : k < n := by
    have hh := (List.get?_eq_some.mp hm).1
    simpa using hh
  rw [List.get?_range hk] at hm
  exact (Option.some.inj hm).symm

theorem get?_of_mem_ids {l : List Inv} {n : Nat} (h5 : l.map Inv.id = List.range n)
    {i : Inv} (hi : i ∈ l) : l.get? i.id = some i := by
  obtain ⟨k, hk⟩ := List.mem_iff_get?.mp hi
  have hid : i.id = k := id_eq_of_get? h5 hk
  rw [hid]
  exact hk

theorem id_lt_of_mem {l : List Inv} {n : Nat} (h5 : l.map Inv.id = List.range n)
    {i : Inv} (hi : i ∈ l) : i.id < n := by
  have hg := get?_of_mem_ids h5 hi
  have hlt : i.id < l.length := (List.get?_eq_some.mp hg).1
  have hlen : l.length = n := by
    have := congrArg List.length h5
    simpa using this
  exact hlen ▸ hlt

theorem mem_prefix_of_id_lt {l pre tail : List Inv} {n : Nat}
    (h5 : l.map Inv.id = List.range n) (hsplit : l = pre ++ tail)
    {i : Inv} (hi : i ∈ l) (hlt : i.id < pre.length) : i ∈ pre := by
  have hg := get?_of_mem_ids h5 hi
  rw [hsplit] at hg
  rw [List.get?_append hlt] at hg
  exact List.get?_mem hg

theorem head_id_eq {l pre tail : List Inv} {j : Inv} {n : Nat}
    (h5 : l.map Inv.id = List.range n) (hsplit : l = pre ++ j :: tail) :
    j.id = pre.length := by
  have hg : l.get? pre.length = some j := by
    rw [hsplit, List.get?_append_right (le_refl _)]
    simp
  exact id_eq_of_get? h5 hg

theorem sublist_ext {l t t2 : List Ev} (h : l.Sublist t) : l.Sublist (t ++ t2) :=
  h.trans (List.sublist_append_left t t2)

theorem sublist_pair {x y : Ev} {t : List Ev} (hx : x ∈ t) :
    [x, y].Sublist (t ++ [y]) := by
  have h1 : [x].Sublist t := List.singleton_sublist.mpr hx
  have h2 := h1.append (List.Sublist.refl [y])
  simpa using h2

/-- Discard-free invariants: the queue content is exactly the enqueued but
not yet started suffix, and every earlier-enqueued invocation's settlement
and callback delivery precede every later-started invocation's start. -/
structure GoodND (s : S) : Prop where
  core : Good s
  gA : ∀ q, s.ftq = some q → enqsOf s.trace = startsOf s.trace ++ q
  gB : s.ftq = none → enqsOf s.trace = startsOf s.trace ∧ s.running = none
  gC : ∀ i j : Inv, i ∈ enqsOf s.trace → Ev.start j ∈ s.trace → i.id < j.id →
        ∃ v, List.Sublist [Ev.settle i v, Ev.start j] s.trace
  gD : ∀ i j : Inv, i ∈ enqsOf s.trace → Ev.start j ∈ s.trace → i.id < j.id →
        ∃ c v, List.Sublist [Ev.cb c i v, Ev.start j] s.trace

theorem goodND_init : GoodND S.init := by
  refine ⟨good_init, ?_, ?_, ?_, ?_⟩ <;> simp [S.init]

theorem settled_of_mem_starts {s : S} (hg : Good s) (hrun : s.running = none)
    {i : Inv} (hi : i ∈ startsOf s.trace) : ∃ v, (i, v) ∈ settlesOf s.trace := by
  have hg2 := hg.g2
  rw [hrun] at hg2
  simp only [Option.toList_none, List.append_nil] at hg2
  rw [hg2] at hi
  obtain ⟨⟨i1, v⟩, hp, hfst⟩ := List.mem_map.mp hi
  simp only at hfst
  subst hfst
  exact ⟨v, hp⟩

theorem cb_of_settled {s : S} (hg : Good s) {i : Inv} {v : Option Nat}
    (hi : (i, v) ∈ settlesOf s.trace) : ∃ c, (c, i, v) ∈ cbsOf s.trace := by
  have h10 := hg.g10
  rw [← h10] at hi
  obtain ⟨⟨c, i1, v1⟩, hp, heq⟩ := List.mem_map.mp hi
  simp only [Prod.mk.injEq] at heq
  obtain ⟨h1, h2⟩ := heq
  subst h1
  subst h2
  exact ⟨c, hp⟩

theorem mem_enqs_of_mem_starts {s : S} (hgnd : GoodND s) {j : Inv}
    (hj : j ∈ startsOf s.trace) : j ∈ enqsOf s.trace := by
  cases hq : s.ftq with
  | some q =>
      rw [hgnd.gA q hq]
      exact List.mem_append_left _ hj
  | none =>
      rw [(hgnd.gB hq).1]
      exact hj

end CreateSafe

namespace CreateSafe

/-- The wrapped invocation freshly enqueued by a firing of timer `t`. -/
def fresh (s : S) (t : Nat) (rec : Timer) : Inv :=
  { id := s.nextInv, tid := t, args := rec.args }

theorem fireF_eq_of_none {s : S} {t : Nat} {rec : Timer}
    (hget : s.timers.get? t = some rec) (hq : s.ftq = none) :
    fireF s t = { s with timers := s.timers.set t (bump rec) } := by
  simp only [fireF, bump, hget, hq]

theorem fireF_eq_of_some {s : S} {t : Nat} {rec : Timer} {q : List Inv}
    (hget : s.timers.get? t = some rec) (hq : s.ftq = some q) :
    fireF s t =
      { s with
        timers := s.timers.set t (bump rec),
        ftq := some (q ++ [fresh s t rec]),
        nextInv := s.nextInv + 1,
        ftl := (match s.ftl with
          | some false => some true
          | x => x),
        trace := s.trace ++ [Ev.enq (fresh s t rec)] } := by
  simp only [fireF, bump, fresh, hget, hq]

theorem loopF_eq_pop {s : S} {i : Inv} {rest : List Inv} (hq : s.ftq = some (i :: rest)) :
    loopF s = { s with ftq := some rest, running := some i,
                       trace := s.trace ++ [Ev.start i] } := by
  simp only [loopF, hq]

theorem loopF_eq_exit_nil {s : S} (hq : s.ftq = some []) :
    loopF s = { s with ftq := none, ftl := none } := by
  simp only [loopF, hq]

theorem loopF_eq_exit_none {s : S} (hq : s.ftq = none) :
    loopF s = { s with ftq := none, ftl := none } := by
  simp only [loopF, hq]

theorem goodND_register {s : S} (p a : Nat) (ii : Bool) (cb : Option Nat)
    (hgnd : GoodND s) : GoodND (registerF s p a ii cb false) := by
  refine ⟨good_register _ _ _ _ _ hgnd.core, ?_, ?_, ?_, ?_⟩
  · intro q hq
    rw [registerF_ftq, if_neg (by simp)] at hq
    rw [registerF_trace]
    simp only [enqsOf_append, enqsOf_regCb, startsOf_append, startsOf_regCb, List.append_nil]
    cases hsq : s.ftq with
    | some q0 =>
        rw [hsq] at hq
        simp only [setQueue, Option.some.injEq] at hq
        subst hq
        exact hgnd.gA q0 hsq
    | none =>
        rw [hsq] at hq
        simp only [setQueue, Option.some.injEq] at hq
        subst hq
        simpa using (hgnd.gB hsq).1
  · intro hq
    rw [registerF_ftq, if_neg (by simp)] at hq
    cases hsq : s.ftq <;> rw [hsq] at hq <;> simp [setQueue] at hq
  · intro i j hi hj hlt
    rw [registerF_trace] at hi hj ⊢
    simp only [enqsOf_append, enqsOf_regCb, List.append_nil] at hi
    rcases List.mem_append.mp hj with hj | hj
    · obtain ⟨v, hv⟩ := hgnd.gC i j hi hj hlt
      exact ⟨v, sublist_ext hv⟩
    · simp at hj
  · intro i j hi hj hlt
    rw [registerF_trace] at hi hj ⊢
    simp only [enqsOf_append, enqsOf_regCb, List.append_nil] at hi
    rcases List.mem_append.mp hj with hj | hj
    · obtain ⟨c, v, hv⟩ := hgnd.gD i j hi hj hlt
      exact ⟨c, v, sublist_ext hv⟩
    · simp at hj

theorem goodND_cancel {s : S} (hgnd : GoodND s) : GoodND (cancelF s false) := by
  refine ⟨good_cancel _ hgnd.core, ?_, ?_, ?_, ?_⟩
  · intro q hq
    rw [cancelF_ftq, if_neg (by simp)] at hq
    rw [cancelF_trace]
    exact hgnd.gA q hq
  · intro hq
    rw [cancelF_ftq, if_neg (by simp)] at hq
    rw [cancelF_trace, cancelF_running]
    exact hgnd.gB hq
  · intro i j hi hj hlt
    rw [cancelF_trace] at hi hj ⊢
    exact hgnd.gC i j hi hj hlt
  · intro i j hi hj hlt
    rw [cancelF_trace] at hi hj ⊢
    exact hgnd.gD i j hi hj hlt

end CreateSafe

namespace CreateSafe

theorem goodND_fire {s : S} (t : Nat) (h : fireEnabled s t = true) (hgnd : GoodND s) :
    GoodND (fireF s t) := by
  obtain ⟨rec, hget, harm⟩ := fireEnabled_iff.mp h
  refine ⟨good_fire t h hgnd.core, ?_, ?_, ?_, ?_⟩
  · cases hq : s.ftq with
    | none =>
        rw [fireF_eq_of_none hget hq]
        intro q hq2
        simp only at hq2
        rw [hq] at hq2
        cases hq2
    | some q =>
        rw [fireF_eq_of_some hget hq]
        intro q2 hq2
        simp only [Option.some.injEq] at hq2
        subst hq2
        simp only [enqsOf_append, startsOf_append, enqsOf_enq, startsOf_enq, List.append_nil]
        rw [hgnd.gA q hq]
        simp
  · cases hq : s.ftq with
    | none =>
        rw [fireF_eq_of_none hget hq]
        intro hq2
        exact hgnd.gB hq
    | some q =>
        rw [fireF_eq_of_some hget hq]
        intro hq2
        cases hq2
  · cases hq : s.ftq with
    | none =>
        rw [fireF_eq_of_none hget hq]
        intro i j hi hj hlt
        exact hgnd.gC i j hi hj hlt
    | some q =>
        rw [fireF_eq_of_some hget hq]
        intro i j hi hj hlt
        simp only [enqsOf_append, enqsOf_enq, List.append_nil] at hi
        have hj' : Ev.start j ∈ s.trace := by
          rcases List.mem_append.mp hj with hj | hj
          · exact hj
          · simp at hj
        rcases List.mem_append.mp hi with hi | hi
        · obtain ⟨v, hv⟩ := hgnd.gC i j hi hj' hlt
          exact ⟨v, sublist_ext hv⟩
        · exfalso
          simp only [List.mem_singleton] at hi
          subst hi
          have hjm : j ∈ enqsOf s.trace :=
            mem_enqs_of_mem_starts hgnd (mem_startsOf_of_mem hj')
          have : j.id < s.nextInv := id_lt_of_mem hgnd.core.g5 hjm
          simp only [fresh] at hlt
          omega
  · cases hq : s.ftq with
    | none =>
        rw [fireF_eq_of_none hget hq]
        intro i j hi hj hlt
        exact hgnd.gD i j hi hj hlt
    | some q =>
        rw [fireF_eq_of_some hget hq]
        intro i j hi hj hlt
        simp only [enqsOf_append, enqsOf_enq, List.append_nil] at hi
        have hj' : Ev.start j ∈ s.trace := by
          rcases List.mem_append.mp hj with hj | hj
          · exact hj
          · simp at hj
        rcases List.mem_append.mp hi with hi | hi
        · obtain ⟨c, v, hv⟩ := hgnd.gD i j hi hj' hlt
          exact ⟨c, v, sublist_ext hv⟩
        · exfalso
          simp only [List.mem_singleton] at hi
          subst hi
          have hjm : j ∈ enqsOf s.trace :=
            mem_enqs_of_mem_starts hgnd (mem_startsOf_of_mem hj')
          have : j.id < s.nextInv := id_lt_of_mem hgnd.core.g5 hjm
          simp only [fresh] at hlt
          omega

theorem goodND_loop {s : S} (h1 : s.ftl = some true) (h2 : s.running = none)
    (hgnd : GoodND s) : GoodND (loopF s) := by
  have hcore := good_loop h1 h2 hgnd.core
  cases hq : s.ftq with
  | some q =>
    cases q with
    | cons i rest =>
        have hsplit : enqsOf s.trace = startsOf s.trace ++ i :: rest := hgnd.gA _ hq
        have hiid : i.id = (startsOf s.trace).length := head_id_eq hgnd.core.g5 hsplit
        rw [loopF_eq_pop hq]
        refine ⟨by rw [← loopF_eq_pop hq]; exact hcore, ?_, ?_, ?_, ?_⟩
        · intro q2 hq2
          simp only [Option.some.injEq] at hq2
          subst hq2
          simp only [enqsOf_append, startsOf_append, enqsOf_start, startsOf_start,
            List.append_nil]
          rw [hsplit]
          simp
        · intro hq2
          cases hq2
        · intro i' j hi' hj hlt
          simp only [enqsOf_append, enqsOf_start, List.append_nil] at hi'
          rcases List.mem_append.mp hj with hj | hj
          · obtain ⟨v, hv⟩ := hgnd.gC i' j hi' hj hlt
            exact ⟨v, sublist_ext hv⟩
          · simp only [List.mem_singleton] at hj
            cases hj
            have hmem : i' ∈ startsOf s.trace := by
              refine mem_prefix_of_id_lt hgnd.core.g5 hsplit hi' ?_
              rw [← hiid]
              exact hlt
            obtain ⟨v, hv⟩ := settled_of_mem_starts hgnd.core h2 hmem
            exact ⟨v, sublist_pair (mem_of_mem_settlesOf hv)⟩
        · intro i' j hi' hj hlt
          simp only [enqsOf_append, enqsOf_start, List.append_nil] at hi'
          rcases List.mem_append.mp hj with hj | hj
          · obtain ⟨c, v, hv⟩ := hgnd.gD i' j hi' hj hlt
            exact ⟨c, v, sublist_ext hv⟩
          · simp only [List.mem_singleton] at hj
            cases hj
            have hmem : i' ∈ startsOf s.trace := by
              refine mem_prefix_of_id_lt hgnd.core.g5 hsplit hi' ?_
              rw [← hiid]
              exact hlt
            obtain ⟨v, hv⟩ := settled_of_mem_starts hgnd.core h2 hmem
            obtain ⟨c, hc⟩ := cb_of_settled hgnd.core hv
            exact ⟨c, v, sublist_pair (mem_of_mem_cbsOf hc)⟩
    | nil =>
        rw [loopF_eq_exit_nil hq]
        refine ⟨by rw [← loopF_eq_exit_nil hq]; exact hcore, ?_, ?_, ?_, ?_⟩
        · intro q2 hq2
          cases hq2
        · intro _
          refine ⟨?_, h2⟩
          simpa using hgnd.gA [] hq
        · intro i' j hi' hj hlt
          exact hgnd.gC i' j hi' hj hlt
        · intro i' j hi' hj hlt
          exact hgnd.gD i' j hi' hj hlt
  | none =>
      rw [loopF_eq_exit_none hq]
      refine ⟨by rw [← loopF_eq_exit_none hq]; exact hcore, ?_, ?_, ?_, ?_⟩
      · intro q2 hq2
        cases hq2
      · intro _
        exact ⟨(hgnd.gB hq).1, h2⟩
      · intro i' j hi' hj hlt
        exact hgnd.gC i' j hi' hj hlt
      · intro i' j hi' hj hlt
        exact hgnd.gD i' j hi' hj hlt

theorem goodND_settle {s : S} (i : Inv) (v : Option Nat) (h : s.running = some i)
    (hgnd : GoodND s) : GoodND (settleF s i v) := by
  refine ⟨good_settle i v h hgnd.core, ?_, ?_, ?_, ?_⟩
  · intro q hq
    simp only [settleF] at hq ⊢
    simp only [enqsOf_append, startsOf_append, enqsOf_settle, enqsOf_cb,
      startsOf_settle, startsOf_cb, List.append_nil]
    exact hgnd.gA q hq
  · intro hq
    simp only [settleF] at hq
    constructor
    · simp only [settleF, enqsOf_append, startsOf_append, enqsOf_settle, enqsOf_cb,
        startsOf_settle, startsOf_cb, List.append_nil]
      exact (hgnd.gB hq).1
    · rfl
  · intro i' j hi' hj hlt
    simp only [settleF] at hi' hj ⊢
    simp only [enqsOf_append, enqsOf_settle, enqsOf_cb, List.append_nil] at hi'
    have hj' : Ev.start j ∈ s.trace := by
      rcases List.mem_append.mp hj with hj | hj
      · rcases List.mem_append.mp hj with hj | hj
        · exact hj
        · simp at hj
      · simp at hj
    obtain ⟨v', hv⟩ := hgnd.gC i' j hi' hj' hlt
    exact ⟨v', sublist_ext (sublist_ext hv)⟩
  · intro i' j hi' hj hlt
    simp only [settleF] at hi' hj ⊢
    simp only [enqsOf_append, enqsOf_settle, enqsOf_cb, List.append_nil] at hi'
    have hj' : Ev.start j ∈ s.trace := by
      rcases List.mem_append.mp hj with hj | hj
      · rcases List.mem_append.mp hj with hj | hj
        · exact hj
        · simp at hj
      · simp at hj
    obtain ⟨c, v', hv⟩ := hgnd.gD i' j hi' hj' hlt
    exact ⟨c, v', sublist_ext (sublist_ext hv)⟩

theorem goodND_step {s s' : S} (h : GStep true s s') (hgnd : GoodND s) : GoodND s' := by
  cases h with
  | register period args isInterval cbId rq hnd =>
      have hrq := hnd rfl
      subst hrq
      exact goodND_register _ _ _ _ hgnd
  | cancel rq hnd =>
      have hrq := hnd rfl
      subst hrq
      exact goodND_cancel hgnd
  | fire t ht => exact goodND_fire t ht hgnd
  | loop h1 h2 => exact goodND_loop h1 h2 hgnd
  | settle i v hr => exact goodND_settle i v hr hgnd

theorem goodND_reach {s : S} (h : ReachND s) : GoodND s := by
  induction h with
  | refl => exact goodND_init
  | tail hab hbc => exact goodND_step hbc (by assumption)

end CreateSafe

namespace CreateSafe

/-- Number of pending thunks in the queue. -/
def qlen (s : S) : Nat :=
  match s.ftq with
  | some q => q.length
  | none => 0

/-- One when an invocation is in flight. -/
def runBitS (s : S) : Nat :=
  match s.running with
  | some _ => 1
  | none => 0

/-- One while the resolve loop is marked active. -/
def flagBit (s : S) : Nat :=
  if s.ftl = some true then 1 else 0

/-- Bound on the number of resolve-loop resumptions and settlements left
before the loop exits naturally. -/
def drainMeasure (s : S) : Nat :=
  2 * qlen s + runBitS s + flagBit s

/-- Runs the resolve loop to natural exit within the given fuel: settle the
in-flight invocation (with no produced value), resume the loop while its
flag is set, stop when the loop has exited. -/
def drainAux : Nat → S → S
  | 0, s => s
  | n + 1, s =>
    match s.running with
    | some i => drainAux n (settleF s i none)
    | none =>
        if s.ftl = some true then drainAux n (loopF s) else s

/-- The state after the resolve loop has drained the queue and exited. -/
def drainF (s : S) : S :=
  drainAux (drainMeasure s) s

theorem drainMeasure_settle {s : S} {i : Inv} (v : Option Nat) (h : s.running = some i) :
    drainMeasure (settleF s i v) < drainMeasure s := by
  simp only [drainMeasure, qlen, runBitS, flagBit, settleF, h]
  omega

theorem drainMeasure_loop {s : S} (h1 : s.ftl = some true) (h2 : s.running = none) :
    drainMeasure (loopF s) < drainMeasure s := by
  cases hq : s.ftq with
  | some q =>
    cases q with
    | cons i rest =>
        rw [loopF_eq_pop hq]
        simp only [drainMeasure, qlen, runBitS, flagBit, hq, h1, h2]
        simp [List.length_cons]
        omega
    | nil =>
        rw [loopF_eq_exit_nil hq]
        simp only [drainMeasure, qlen, runBitS, flagBit, hq, h1, h2]
        simp
  | none =>
      rw [loopF_eq_exit_none hq]
      simp only [drainMeasure, qlen, runBitS, flagBit, hq, h1, h2]
      simp

theorem settleF_enqs (s : S) (i : Inv) (v : Option Nat) :
    enqsOf (settleF s i v).trace = enqsOf s.trace := by
  simp [settleF]

theorem loopF_enqs (s : S) : enqsOf (loopF s).trace = enqsOf s.trace := by
  cases hq : s.ftq with
  | some q =>
    cases q with
    | cons i rest => rw [loopF_eq_pop hq]; simp
    | nil => rw [loopF_eq_exit_nil hq]
  | none => rw [loopF_eq_exit_none hq]

theorem drainAux_props : ∀ (n : Nat) (s : S), drainMeasure s ≤ n →
    Relation.ReflTransGen (GStep true) s (drainAux n s) ∧
    (drainAux n s).running = none ∧ ¬((drainAux n s).ftl = some true) ∧
    enqsOf (drainAux n s).trace = enqsOf s.trace := by
  intro n
  induction n with
  | zero =>
      intro s h
      have hrun : s.running = none := by
        cases hr : s.running
        · rfl
        · exfalso
          simp [drainMeasure, runBitS, hr] at h
      have hflag : ¬(s.ftl = some true) := by
        intro hl
        simp [drainMeasure, flagBit, hl] at h
      exact ⟨.refl, hrun, hflag, rfl⟩
  | succ n ih =>
      intro s h
      cases hr : s.running with
      | some i =>
          have hstep : GStep true s (settleF s i none) := .settle s i none hr
          have hm : drainMeasure (settleF s i none) ≤ n := by
            have := drainMeasure_settle none hr
            omega
          obtain ⟨hrt, h1, h2, h3⟩ := ih (settleF s i none) hm
          have heq : drainAux (n + 1) s = drainAux n (settleF s i none) := by
            simp [drainAux, hr]
          rw [heq]
          exact ⟨.head hstep hrt, h1, h2, h3.trans (settleF_enqs s i none)⟩
      | none =>
          by_cases hl : s.ftl = some true
          · have hstep : GStep true s (loopF s) := .loop s hl hr
            have hm : drainMeasure (loopF s) ≤ n := by
              have := drainMeasure_loop hl hr
              omega
            obtain ⟨hrt, h1, h2, h3⟩ := ih (loopF s) hm
            have heq : drainAux (n + 1) s = drainAux n (loopF s) := by
              simp [drainAux, hr, hl]
            rw [heq]
            exact ⟨.head hstep hrt, h1, h2, h3.trans (loopF_enqs s)⟩
          · have heq : drainAux (n + 1) s = s := by
              simp [drainAux, hr, hl]
            rw [heq]
            exact ⟨.refl, hr, hl, rfl⟩

theorem drainF_props (s : S) :
    Relation.ReflTransGen (GStep true) s (drainF s) ∧
    (drainF s).running = none ∧ ¬((drainF s).ftl = some true) ∧
    enqsOf (drainF s).trace = enqsOf s.trace :=
  drainAux_props (drainMeasure s) s (le_refl _)

theorem drained_all {d : S} (hgnd : GoodND d) (hrun : d.running = none)
    (hflag : ¬(d.ftl = some true)) :
    (settlesOf d.trace).map Prod.fst = enqsOf d.trace := by
  have hse : startsOf d.trace = enqsOf d.trace := by
    cases hq : d.ftq with
    | some q =>
        cases q with
        | nil => simpa using (hgnd.gA [] hq).symm
        | cons i rest =>
            exact absurd (hgnd.core.g7 _ hq (by simp)) hflag
    | none => exact (hgnd.gB hq).1.symm
  have hg2 := hgnd.core.g2
  rw [hrun] at hg2
  simp only [Option.toList_none, List.append_nil] at hg2
  rw [← hg2, hse]

end CreateSafe

namespace CreateSafe

theorem loopF_timers (s : S) : (loopF s).timers = s.timers := by
  cases hq : s.ftq with
  | some q =>
    cases q with
    | cons i rest => rw [loopF_eq_pop hq]
    | nil => rw [loopF_eq_exit_nil hq]
  | none => rw [loopF_eq_exit_none hq]

theorem step_cleared_frozen {b : Bool} {s s' : S} (h : GStep b s s') {t : Nat} {rec : Timer}
    (hget : s.timers.get? t = some rec) (hc : rec.status = .cleared) :
    s'.timers.get? t = some rec := by
  cases h with
  | register period args isInterval cbId rq hnd =>
      exact registerF_timers_of_cleared _ _ _ _ _ hget hc
  | cancel rq hnd =>
      exact cancelF_timers_of_cleared _ hget hc
  | fire t2 ht =>
      obtain ⟨rec2, hget2, harm2⟩ := fireEnabled_iff.mp ht
      have htne : t ≠ t2 := by
        intro hx
        subst hx
        rw [hget] at hget2
        cases Option.some.inj hget2
        rw [hc] at harm2
        cases harm2
      cases hq : s.ftq with
      | none =>
          rw [fireF_eq_of_none hget2 hq]
          simp only
          rw [List.get?_set_ne _ _ (Ne.symm htne)]
          exact hget
      | some q =>
          rw [fireF_eq_of_some hget2 hq]
          simp only
          rw [List.get?_set_ne _ _ (Ne.symm htne)]
          exact hget
  | loop h1 h2 =>
      rw [loopF_timers]
      exact hget
  | settle i v hr =>
      exact hget

theorem reachFrom_cleared_frozen {s s' : S}
    (h : Relation.ReflTransGen (GStep false) s s') {t : Nat} {rec : Timer}
    (hget : s.timers.get? t = some rec) (hc : rec.status = .cleared) :
    s'.timers.get? t = some rec := by
  induction h with
  | refl => exact hget
  | tail hab hbc ih => exact step_cleared_frozen hbc ih hc

end CreateSafe

namespace Registration

/-- An armed timer for callable `c` with the given period and arguments. -/
def armedRec (c : RegCallable) (cur : Nat × Nat) : RegTimer :=
  { owner := c, period := cur.1, args := cur.2, status := .armed }

/-- The cleared leftover of `armedRec c cur` after re-registration. -/
def clearedRec (c : RegCallable) (cur : Nat × Nat) : RegTimer :=
  { owner := c, period := cur.1, args := cur.2, status := .cleared }

/-- The superseded timers of a run of registrations: one cleared timer per
earlier request, in registration order. -/
def clearedOf (c : RegCallable) (reqs : List (Nat × Nat)) : List RegTimer :=
  reqs.map (clearedRec c)

/-- Shape of the store after a run of singleton registrations of `c`: the
superseded timers are all cleared and the one armed timer carries the most
recent period and arguments, with the single `ftc` entry pointing at it. -/
def canonSt (c : RegCallable) (done : List (Nat × Nat)) (cur : Nat × Nat) : RegState :=
  { ftc := [(c, done.length)],
    timers := clearedOf c done ++ [armedRec c cur] }

theorem clearedOf_append (c : RegCallable) (l1 l2 : List (Nat × Nat)) :
    clearedOf c (l1 ++ l2) = clearedOf c l1 ++ clearedOf c l2 := by
  simp [clearedOf]

theorem set_concat {α : Type} (l : List α) (x y : α) :
    (l ++ [x]).set l.length y = l ++ [y] := by
  induction l with
  | nil => rfl
  | cons a t ih => simp [List.set, ih]

theorem registerR_empty (c : RegCallable) (p a : Nat) :
    registerR c p a RegState.empty = canonSt c [] (p, a) := by
  simp [registerR, resolveKey, destroyR, canonSt, clearedOf, RegState.empty, armedRec]

theorem destroyR_canon (c : RegCallable) (done : List (Nat × Nat)) (cur : Nat × Nat) :
    destroyR c (canonSt c done cur) =
      { ftc := [], timers := clearedOf c (done ++ [cur]) } := by
  simp only [destroyR, canonSt]
  rw [List.find?_cons_of_pos _ (by simp)]
  simp only [clearTimerR]
  have hlen : (clearedOf c done).length = done.length := by simp [clearedOf]
  have hget : (clearedOf c done ++ [armedRec c cur]).get? done.length
      = some (armedRec c cur) := by
    rw [← hlen]
    exact List.get?_concat_length _ _
  rw [hget]
  simp only []
  have hset : (clearedOf c done ++ [armedRec c cur]).set done.length ({ owner := (armedRec c cur).owner, period := (armedRec c cur).period, args := (armedRec c cur).args, status := RStatus.cleared }) = clearedOf c done ++ [clearedRec c cur] := by
    rw [← hlen]
    exact set_concat _ _ _
  rw [hset, clearedOf_append]
  simp [clearedOf, List.filter, clearedRec]

theorem registerR_canon (c : RegCallable) (p a : Nat) (done : List (Nat × Nat))
    (cur : Nat × Nat) :
    registerR c p a (canonSt c done cur) = canonSt c (done ++ [cur]) (p, a) := by
  have hres : resolveKey c (canonSt c done cur) = c := by
    simp [resolveKey, canonSt]
  simp only [registerR, hres, destroyR_canon]
  simp [canonSt, clearedOf, armedRec]

theorem regFold_canon (c : RegCallable) :
    ∀ (rest : List (Nat × Nat)) (done : List (Nat × Nat)) (cur : Nat × Nat),
    List.foldl (fun st pa => registerR c pa.1 pa.2 st) (canonSt c done cur) rest
      = canonSt c (done ++ (cur :: rest).dropLast)
          ((cur :: rest).getLast (by simp)) := by
  intro rest
  induction rest with
  | nil => simp
  | cons pa rest' ih =>
      intro done cur
      simp only [List.foldl_cons]
      rw [show registerR c pa.1 pa.2 (canonSt c done cur)
          = canonSt c (done ++ [cur]) (pa.1, pa.2) from registerR_canon c pa.1 pa.2 done cur]
      rw [show ((pa.1, pa.2) : Nat × Nat) = pa from rfl]
      rw [ih (done ++ [cur]) pa]
      have h2 : (cur :: pa :: rest').getLast (by simp)
          = (pa :: rest').getLast (by simp) := by
        rw [List.getLast_cons]
      rw [h2]
      simp

theorem regRun_canon (c : RegCallable) (r0 : Nat × Nat) (rest : List (Nat × Nat)) :
    regRun c (r0 :: rest) = canonSt c ((r0 :: rest).dropLast)
      ((r0 :: rest).getLast (by simp)) := by
  simp only [regRun, List.foldl_cons]
  rw [show registerR c r0.1 r0.2 RegState.empty
      = canonSt c [] (r0.1, r0.2) from registerR_empty c r0.1 r0.2]
  rw [show ((r0.1, r0.2) : Nat × Nat) = r0 from rfl]
  rw [regFold_canon c rest [] r0]
  simp

theorem armedOf_canon (c : RegCallable) (done : List (Nat × Nat)) (cur : Nat × Nat) :
    armedOf (canonSt c done cur) = [armedRec c cur] := by
  simp only [armedOf, canonSt, List.filter_append]
  have h1 : (clearedOf c done).filter (fun tm => tm.status == RStatus.armed) = [] := by
    induction done with
    | nil => rfl
    | cons pa rest ih =>
        rw [show clearedOf c (pa :: rest) = clearedRec c pa :: clearedOf c rest from rfl]
        rw [List.filter_cons]
        simp only [show ((clearedRec c pa).status == RStatus.armed) = false from rfl,
          Bool.false_eq_true, if_false]
        exact ih
  rw [h1]
  rw [List.filter_cons]
  simp only [show ((armedRec c cur).status == RStatus.armed) = true from rfl, if_pos rfl]
  rfl

end Registration

namespace IntervalChain

theorem armedCount_set {l : List CStatus} {t : Nat} {st : CStatus}
    (h : l.get? t = some st) (x : CStatus) :
    ((l.set t x).filter (fun u => u == CStatus.armed)).length
        + (if st == CStatus.armed then 1 else 0)
      = (l.filter (fun u => u == CStatus.armed)).length
        + (if x == CStatus.armed then 1 else 0) := by
  obtain ⟨hlt, -⟩ := List.get?_eq_some.mp h
  rw [List.set_eq_take_cons_drop x hlt]
  have hdec : l.drop t = st :: l.drop (t + 1) := by
    rw [List.drop_eq_get_cons hlt]
    congr 1
    have := List.get?_eq_some.mp h
    obtain ⟨h2, h3⟩ := this
    exact h3.symm ▸ rfl
  conv_rhs => rw [← List.take_append_drop t l, hdec]
  simp only [List.filter_append, List.filter_cons, List.length_append]
  cases st <;> cases x <;> simp <;> omega

theorem cstep_inv {s s' : C} (h : CStep s s') (hinv : armedCount s + runBit s ≤ 1) :
    armedCount s' + runBit s' ≤ 1 := by
  cases h with
  | fire t h1 h2 =>
      have hget : s.timers.get? t = some .armed := by
        simp only [cfireEnabled] at h1
        cases hg : s.timers.get? t with
        | none => rw [hg] at h1; cases h1
        | some st =>
            rw [hg] at h1
            simp at h1
            rw [h1]
      have hcnt := armedCount_set hget CStatus.fired
      simp only [armedCount, runBit, cfireF, h2] at hinv ⊢
      simp only [show (CStatus.armed == CStatus.armed) = true from rfl,
        show (CStatus.fired == CStatus.armed) = false from rfl] at hcnt
      simp at hcnt
      omega
  | settle t hr =>
      have hrun : runBit s = 1 := by simp [runBit, hr]
      have hrun' : runBit (csettleF s) = 0 := by simp [runBit, csettleF]
      cases hreg : s.registered with
      | false =>
          have hc : armedCount (csettleF s) = armedCount s := by
            simp [armedCount, csettleF, hreg]
          omega
      | true =>
          have hc : armedCount (csettleF s) = armedCount s + 1 := by
            simp [armedCount, csettleF, hreg, List.filter_append, List.filter]
          omega
  | clear =>
      have hrb : runBit (cclearF s) = runBit s := by simp [runBit, cclearF]
      cases hlast : s.timers.getLast? with
      | none =>
          have hc : armedCount (cclearF s) = armedCount s := by
            simp [armedCount, cclearF, hlast]
          omega
      | some st =>
          cases st with
          | armed =>
              have hne : s.timers ≠ [] := by
                intro hx
                rw [hx] at hlast
                cases hlast
              have hdecomp : s.timers.dropLast ++ [CStatus.armed] = s.timers := by
                have h3 := List.dropLast_append_getLast hne
                have h4 : s.timers.getLast hne = CStatus.armed := by
                  have h5 := List.getLast?_eq_getLast s.timers hne
                  rw [h5] at hlast
                  exact Option.some.inj hlast
                rw [h4] at h3
                exact h3
              have hcnt : armedCount s
                  = (s.timers.dropLast.filter (fun u => u == CStatus.armed)).length + 1 := by
                conv_lhs => rw [armedCount, ← hdecomp]
                simp [List.filter_append, List.filter]
              have hcnt' : armedCount (cclearF s)
                  = (s.timers.dropLast.filter (fun u => u == CStatus.armed)).length := by
                simp only [cclearF, hlast, armedCount]
                rw [List.filter_append]
                simp [List.filter_cons]
              omega
          | fired =>
              have hc : armedCount (cclearF s) = armedCount s := by
                simp [armedCount, cclearF, hlast]
              omega
          | cleared =>
              have hc : armedCount (cclearF s) = armedCount s := by
                simp [armedCount, cclearF, hlast]
              omega

theorem creach_inv {s : C} (h : CReach s) : armedCount s + runBit s ≤ 1 := by
  induction h with
  | refl => simp [C.start, armedCount, runBit]
  | tail hab hbc ih => exact cstep_inv hbc (by assumption)

end IntervalChain

namespace CreateSafe

/-- Concrete run: register a one-shot with callback 7, let it fire, rewrite
with callback 9 while the first invocation is pending, drain both. -/
def w0 : S := S.init

def w1 : S := registerF w0 5 7 false (some 7) false

def w2 : S := fireF w1 0

def w3 : S := registerF w2 3 8 false (some 9) false

def w4 : S := loopF w3

def w5 : S := fireF w4 1

def w6 : S := settleF w5 ⟨0, 0, 7⟩ (some 5)

def w7 : S := loopF w6

def w8 : S := settleF w7 ⟨1, 1, 8⟩ none

theorem w8_reachND : ReachND w8 := by
  have h1 : GStep true w0 w1 := .register w0 5 7 false (some 7) false (fun _ => rfl)
  have h2 : GStep true w1 w2 := .fire w1 0 (by decide)
  have h3 : GStep true w2 w3 := .register w2 3 8 false (some 9) false (fun _ => rfl)
  have h4 : GStep true w3 w4 := .loop w3 (by decide) (by decide)
  have h5 : GStep true w4 w5 := .fire w4 1 (by decide)
  have h6 : GStep true w5 w6 := .settle w5 ⟨0, 0, 7⟩ (some 5) (by decide)
  have h7 : GStep true w6 w7 := .loop w6 (by decide) (by decide)
  have h8 : GStep true w7 w8 := .settle w7 ⟨1, 1, 8⟩ none (by decide)
  exact ((((((((Relation.ReflTransGen.refl.tail h1).tail h2).tail h3).tail
    h4).tail h5).tail h6).tail h7).tail h8)

/-- Concrete run: register an interval, let it fire once and start draining
the invocation, leaving the repeating timer armed while it is in flight. -/
def x1 : S := registerF S.init 4 3 true (some 1) false

def x2 : S := fireF x1 0

def x3 : S := loopF x2

def x4 : S := settleF x3 ⟨0, 0, 3⟩ none

theorem x3_reachND : ReachND x3 := by
  have h1 : GStep true S.init x1 := .register S.init 4 3 true (some 1) false (fun _ => rfl)
  have h2 : GStep true x1 x2 := .fire x1 0 (by decide)
  have h3 : GStep true x2 x3 := .loop x2 (by decide) (by decide)
  exact (((Relation.ReflTransGen.refl.tail h1).tail h2).tail h3)

theorem x4_reachND : ReachND x4 := by
  have h4 : GStep true x3 x4 := .settle x3 ⟨0, 0, 3⟩ none (by decide)
  exact x3_reachND.tail h4

/-- Concrete run: register a one-shot and cancel it before it fires, then
register and drain a fresh one-shot; the cleared timer never contributes. -/
def y1 : S := registerF S.init 5 7 false none false

def y2 : S := cancelF y1 false

def y3 : S := registerF y2 2 6 false none false

def y4 : S := fireF y3 1

def y5 : S := loopF y4

def y6 : S := settleF y5 ⟨0, 1, 6⟩ none

theorem y2_reachND : ReachND y2 := by
  have h1 : GStep true S.init y1 := .register S.init 5 7 false none false (fun _ => rfl)
  have h2 : GStep true y1 y2 := .cancel y1 false (fun _ => rfl)
  exact ((Relation.ReflTransGen.refl.tail h1).tail h2)

theorem y2_to_y6 : Relation.ReflTransGen (GStep false) y2 y6 := by
  have h3 : GStep false y2 y3 := .register y2 2 6 false none false (fun h => nomatch h)
  have h4 : GStep false y3 y4 := .fire y3 1 (by decide)
  have h5 : GStep false y4 y5 := .loop y4 (by decide) (by decide)
  have h6 : GStep false y5 y6 := .settle y5 ⟨0, 1, 6⟩ none (by decide)
  exact ((((Relation.ReflTransGen.refl.tail h3).tail h4).tail h5).tail h6)

/-- Concrete run: register a one-shot and let it fire, so that one
invocation is enqueued before any cancellation. -/
def z1 : S := registerF S.init 5 7 false none false

def z2 : S := fireF z1 0

theorem z2_reachND : ReachND z2 := by
  have h1 : GStep true S.init z1 := .register S.init 5 7 false none false (fun _ => rfl)
  have h2 : GStep true z1 z2 := .fire z1 0 (by decide)
  exact ((Relation.ReflTransGen.refl.tail h1).tail h2)

end CreateSafe

namespace CreateSafe

/-- C1: for a callable under a single singleton schedule (no discard), the
resolve loop starts invocations in enqueue order, settles them in enqueue
order, delivers callbacks in settlement (= enqueue) order, and for every
pair of invocations enqueued earlier/later, the earlier one's settlement
event and callback-delivery event strictly precede the later one's start
event in the trace. -/
theorem claim_C1 {s : S} (h : ReachND s) :
    (startsOf s.trace = (enqsOf s.trace).take (startsOf s.trace).length) ∧
    ((settlesOf s.trace).map Prod.fst
        = (enqsOf s.trace).take ((settlesOf s.trace).length)) ∧
    ((cbsOf s.trace).map (fun x => x.2.1) = (settlesOf s.trace).map Prod.fst) ∧
    (∀ i j : Inv, i ∈ enqsOf s.trace → Ev.start j ∈ s.trace → i.id < j.id →
      (∃ v, List.Sublist [Ev.settle i v, Ev.start j] s.trace) ∧
      (∃ c v, List.Sublist [Ev.cb c i v, Ev.start j] s.trace)) := by
  have hgnd := goodND_reach h
  have hsplit : ∃ p, enqsOf s.trace = startsOf s.trace ++ p := by
    cases hq : s.ftq with
    | some q => exact ⟨q, hgnd.gA q hq⟩
    | none => exact ⟨[], by simp [(hgnd.gB hq).1]⟩
  obtain ⟨p, hp⟩ := hsplit
  have ha : startsOf s.trace = (enqsOf s.trace).take (startsOf s.trace).length := by
    rw [hp, List.take_left]
  have hg2 := hgnd.core.g2
  have hb : (settlesOf s.trace).map Prod.fst
      = (enqsOf s.trace).take ((settlesOf s.trace).length) := by
    have hb1 : (settlesOf s.trace).map Prod.fst
        = (startsOf s.trace).take (((settlesOf s.trace).map Prod.fst).length) := by
      rw [hg2, List.take_left]
    rw [hb1, ha]
    rw [List.take_take]
    have hle : ((settlesOf s.trace).map Prod.fst).length ≤ (startsOf s.trace).length := by
      rw [hg2]
      simp
    rw [min_eq_left hle]
    simp
  refine ⟨ha, hb, ?_, ?_⟩
  · have h10 := hgnd.core.g10
    rw [← h10]
    simp [List.map_map]
  · intro i j hi hj hlt
    exact ⟨hgnd.gC i j hi hj hlt, hgnd.gD i j hi hj hlt⟩

/-- Witness for C1 on the concrete two-invocation run. -/
theorem claim_C1_witness :
    (startsOf w8.trace = (enqsOf w8.trace).take (startsOf w8.trace).length) ∧
    ((cbsOf w8.trace).map (fun x => x.2.1) = (settlesOf w8.trace).map Prod.fst) ∧
    (∃ v, List.Sublist [Ev.settle ⟨0, 0, 7⟩ v, Ev.start ⟨1, 1, 8⟩] w8.trace) ∧
    (∃ c v, List.Sublist [Ev.cb c ⟨0, 0, 7⟩ v, Ev.start ⟨1, 1, 8⟩] w8.trace) := by
  have h := claim_C1 w8_reachND
  have hd := h.2.2.2 ⟨0, 0, 7⟩ ⟨1, 1, 8⟩ (by decide) (by decide) (by decide)
  exact ⟨h.1, h.2.2.1, hd.1, hd.2⟩

/-- C2: a repeating (interval) timer that is armed stays armed across its
firings and can fire while a previous invocation is still in flight; the
firing appends the new wrapped invocation to the back of the queue and does
not preempt or run concurrently with the in-flight invocation. -/
theorem claim_C2 {s : S} {t : Nat} {rec : Timer} {q : List Inv} {r : Inv}
    (h : Reach s) (hget : s.timers.get? t = some rec) (harm : rec.status = .armed)
    (hint : rec.isInterval = true) (hq : s.ftq = some q) (hr : s.running = some r) :
    fireEnabled s t = true ∧
    GStep false s (fireF s t) ∧
    (fireF s t).ftq = some (q ++ [fresh s t rec]) ∧
    (fireF s t).running = some r ∧
    (fireF s t).timers.get? t = some (bump rec) ∧
    (bump rec).status = .armed := by
  have hen : fireEnabled s t = true := fireEnabled_iff.mpr ⟨rec, hget, harm⟩
  have hlt : t < s.timers.length := (List.get?_eq_some.mp hget).1
  refine ⟨hen, .fire s t hen, ?_, ?_, ?_, ?_⟩
  · rw [fireF_eq_of_some hget hq]
  · rw [fireF_eq_of_some hget hq]
    exact hr
  · rw [fireF_eq_of_some hget hq]
    simp only
    rw [List.get?_set_of_lt' _ _ hlt, if_pos rfl]
  · simp [bump, hint]
    exact harm

/-- Witness for C2 on the concrete interval run with an in-flight
invocation. -/
theorem claim_C2_witness :
    fireEnabled x3 0 = true ∧
    GStep false x3 (fireF x3 0) ∧
    (fireF x3 0).ftq = some ([] ++ [fresh x3 0 ⟨4, 3, true, 1, .armed⟩]) ∧
    (fireF x3 0).running = some ⟨0, 0, 3⟩ ∧
    (fireF x3 0).timers.get? 0 = some (bump ⟨4, 3, true, 1, .armed⟩) ∧
    (bump (⟨4, 3, true, 1, .armed⟩ : Timer)).status = .armed :=
  claim_C2 (x3_reachND.toReach) (by decide) (by decide) (by decide)
    (by decide) (by decide)

end CreateSafe

namespace CreateSafe

/-- C5: if a native timer instance was cancelled while still armed and had
never fired (clearTimeout before its firing), then along every continuation
of the run the instance stays cleared with zero fires and no event of the
trace — no enqueue, start, settlement or callback delivery — ever refers to
it: the timer instance produces zero invocations. -/
theorem claim_C5 {s s' : S} {t : Nat} {rec : Timer}
    (h : Reach s) (hget : s.timers.get? t = some rec) (hc : rec.status = .cleared)
    (hf : rec.fires = 0) (hs' : Relation.ReflTransGen (GStep false) s s') :
    s'.timers.get? t = some rec ∧ ∀ e ∈ s'.trace, tidOf e ≠ some t := by
  have hfr := reachFrom_cleared_frozen hs' hget hc
  refine ⟨hfr, ?_⟩
  intro e he hte
  have hreach' : Reach s' := Relation.ReflTransGen.trans h hs'
  obtain ⟨rec2, hrec2, hfire⟩ := (good_reach hreach').g6 e he t hte
  rw [hfr] at hrec2
  cases Option.some.inj hrec2
  rw [hf] at hfire
  exact absurd hfire (by simp)

/-- Witness for C5: the first one-shot is cancelled before firing; a later
registration fires and drains, and none of its events mention timer 0. -/
theorem claim_C5_witness :
    y6.timers.get? 0 = some ⟨5, 7, false, 0, .cleared⟩ ∧
    tidOf (Ev.enq ⟨0, 1, 6⟩) ≠ some 0 := by
  have h := @claim_C5 y2 y6 0 ⟨5, 7, false, 0, .cleared⟩
    (y2_reachND.toReach) (by decide) (by decide) (by decide) y2_to_y6
  exact ⟨h.1, h.2 (Ev.enq ⟨0, 1, 6⟩) (by decide)⟩

/-- C6: without the discard flag, cancellation clears only the armed timer:
the queue, loop flag and in-flight invocation are untouched, and when the
resolve loop then drains to natural exit, every invocation that was ever
enqueued has been started and settled, in enqueue order. -/
theorem claim_C6 {s : S} (h : ReachND s) :
    GStep true s (cancelF s false) ∧
    (cancelF s false).ftq = s.ftq ∧
    (cancelF s false).ftl = s.ftl ∧
    (cancelF s false).running = s.running ∧
    (settlesOf (drainF (cancelF s false)).trace).map Prod.fst
        = enqsOf (drainF (cancelF s false)).trace ∧
    startsOf (drainF (cancelF s false)).trace
        = enqsOf (drainF (cancelF s false)).trace ∧
    enqsOf (drainF (cancelF s false)).trace = enqsOf s.trace := by
  have hstep : GStep true s (cancelF s false) := .cancel s false (fun _ => rfl)
  obtain ⟨hrt, hrun, hflag, henq⟩ := drainF_props (cancelF s false)
  have hreach : ReachND (drainF (cancelF s false)) :=
    Relation.ReflTransGen.trans (h.tail hstep) hrt
  have hgnd := goodND_reach hreach
  have hsettles := drained_all hgnd hrun hflag
  have hstarts : startsOf (drainF (cancelF s false)).trace
      = enqsOf (drainF (cancelF s false)).trace := by
    have hg2 := hgnd.core.g2
    rw [hrun] at hg2
    simp only [Option.toList_none, List.append_nil] at hg2
    rw [hg2, hsettles]
  refine ⟨hstep, ?_, cancelF_ftl s false, cancelF_running s false, hsettles, hstarts, ?_⟩
  · rw [cancelF_ftq]
    simp
  · rw [henq, cancelF_trace]

/-- Witness for C6: cancel after one enqueued invocation; the drain still
starts and settles it. -/
theorem claim_C6_witness :
    (cancelF z2 false).ftq = z2.ftq ∧
    (settlesOf (drainF (cancelF z2 false)).trace).map Prod.fst
        = enqsOf (drainF (cancelF z2 false)).trace ∧
    enqsOf (drainF (cancelF z2 false)).trace = enqsOf z2.trace := by
  have h := claim_C6 z2_reachND
  exact ⟨h.2.1, h.2.2.2.2.1, h.2.2.2.2.2.2⟩

/-- C7: singleton re-registration (rewrite) without the discard flag
replaces only the timer: a present queue keeps its exact pending
invocations (hence their original argument tokens), a present loop flag
keeps its value, the callback is overwritten with the newly supplied one, a
fresh armed timer with the new period and arguments is installed under the
cancel handle, the previously armed timer is cleared, and only an explicit
discard request empties the queue. -/
theorem claim_C7 (s : S) (p a : Nat) (ii : Bool) (cb : Option Nat) :
    (∀ q, s.ftq = some q → (registerF s p a ii cb false).ftq = some q) ∧
    (∀ b, s.ftl = some b → (registerF s p a ii cb false).ftl = some b) ∧
    (registerF s p a ii cb false).ftcb = cb ∧
    (registerF s p a ii cb false).ftc = some s.timers.length ∧
    (registerF s p a ii cb false).timers.get? s.timers.length
        = some ⟨p, a, ii, 0, .armed⟩ ∧
    (∀ t rec, s.ftc = some t → s.timers.get? t = some rec → rec.status = .armed →
      ((registerF s p a ii cb false).timers.get? t).map Timer.status
        = some .cleared) ∧
    (registerF s p a ii cb true).ftq = some [] := by
  have htimers : ∀ rq : Bool, (registerF s p a ii cb rq).timers
      = (destroy s).timers ++ [⟨p, a, ii, 0, .armed⟩] := by
    intro rq
    simp [registerF]
  refine ⟨?_, ?_, registerF_ftcb s p a ii cb false, registerF_ftc s p a ii cb false,
    ?_, ?_, ?_⟩
  · intro q hq
    rw [registerF_ftq, if_neg (by simp), hq]
    rfl
  · intro b hb
    rw [registerF_ftl, hb]
    rfl
  · rw [htimers false]
    have hlen : (destroy s).timers.length = s.timers.length := destroy_timers_length s
    rw [← hlen]
    exact List.get?_concat_length _ _
  · intro t rec hftc hget harm
    have hd : (destroy s).timers.get? t
        = some { rec with status := .cleared } := by
      simp only [destroy, hftc]
      rw [clearTimer_get?, hget]
      simp [harm]
    have hlt : t < (destroy s).timers.length := (List.get?_eq_some.mp hd).1
    rw [htimers false, List.get?_append hlt, hd]
    rfl
  · rw [registerF_ftq, if_pos rfl]

/-- Witness for C7 on the interval run: rewriting while one invocation is
queued keeps the queue and loop flag, swaps the callback, arms timer 1 and
clears timer 0. -/
theorem claim_C7_witness :
    (registerF x2 9 2 false (some 4) false).ftq = some [⟨0, 0, 3⟩] ∧
    (registerF x2 9 2 false (some 4) false).ftl = some true ∧
    (registerF x2 9 2 false (some 4) false).ftcb = some 4 ∧
    (registerF x2 9 2 false (some 4) false).ftc = some 1 ∧
    (registerF x2 9 2 false (some 4) false).timers.get? 1
        = some ⟨9, 2, false, 0, .armed⟩ ∧
    ((registerF x2 9 2 false (some 4) false).timers.get? 0).map Timer.status
        = some .cleared ∧
    (registerF x2 9 2 false (some 4) true).ftq = some [] := by
  have h := claim_C7 x2 9 2 false (some 4)
  refine ⟨h.1 [⟨0, 0, 3⟩] (by decide), h.2.1 true (by decide), h.2.2.1, ?_, ?_,
    h.2.2.2.2.2.1 0 ⟨4, 3, true, 1, .armed⟩ (by decide) (by decide) (by decide),
    h.2.2.2.2.2.2⟩
  · have := h.2.2.2.1
    rw [show x2.timers.length = 1 from by decide] at this
    exact this
  · have := h.2.2.2.2.1
    rw [show x2.timers.length = 1 from by decide] at this
    exact this

/-- C8: every callback-delivery point carries the settled value of the
invocation it reports (with `none` standing for `undefined`), there is
exactly one delivery point per drained invocation, and the callback used at
each delivery point is the one most recently registered before it — so an
invocation still in flight across a rewrite reports to the newly registered
callback. -/
theorem claim_C8 {s : S} (h : Reach s) :
    cbOkB none s.trace = true ∧
    (cbsOf s.trace).map (fun x => (x.2.1, x.2.2)) = settlesOf s.trace ∧
    finalCb none s.trace = s.ftcb := by
  have hg := good_reach h
  exact ⟨hg.g9a, hg.g10, hg.g9b⟩

/-- Witness for C8 on the callback-swap run: invocation 0 was enqueued
under callback 7 but settles after the rewrite installed callback 9. -/
theorem claim_C8_witness :
    cbOkB none w8.trace = true ∧
    (cbsOf w8.trace).map (fun x => (x.2.1, x.2.2)) = settlesOf w8.trace ∧
    finalCb none w8.trace = w8.ftcb :=
  claim_C8 (w8_reachND.toReach)

end CreateSafe

namespace CreateSafe

/-- C9: a timer firing for a callable whose queue key has been removed
enqueues nothing and produces no invocation; the resolve loop removes both
the queue and loop keys exactly when it observes the drained (or absent)
queue while nothing is in flight; and in a discard-free run these keys
transition from present to absent only through that natural loop exit. -/
theorem claim_C9 :
    (∀ (s : S) (t : Nat), s.ftq = none →
      (fireF s t).ftq = none ∧ (fireF s t).trace = s.trace ∧
      (fireF s t).running = s.running) ∧
    (∀ s : S, s.ftl = some true → s.running = none →
      (s.ftq = some [] ∨ s.ftq = none) →
      (loopF s).ftq = none ∧ (loopF s).ftl = none) ∧
    (∀ s s' : S, GStep true s s' → s.ftq.isSome → s'.ftq = none →
      s.ftl = some true ∧ s.running = none ∧ s.ftq = some []) ∧
    (∀ s s' : S, GStep true s s' → s.ftl.isSome → s'.ftl = none →
      s.ftl = some true ∧ s.running = none ∧ (s.ftq = some [] ∨ s.ftq = none)) := by
  refine ⟨?_, ?_, ?_, ?_⟩
  · intro s t hq
    cases hget : s.timers.get? t with
    | none =>
        have : fireF s t = s := by simp only [fireF, hget]
        rw [this]
        exact ⟨hq, rfl, rfl⟩
    | some rec =>
        rw [fireF_eq_of_none hget hq]
        exact ⟨hq, rfl, rfl⟩
  · intro s h1 h2 hq
    rcases hq with hq | hq
    · rw [loopF_eq_exit_nil hq]
      exact ⟨rfl, rfl⟩
    · rw [loopF_eq_exit_none hq]
      exact ⟨rfl, rfl⟩
  · intro s s' hstep hsome hnone
    cases hstep with
    | register period args isInterval cbId rq hnd =>
        exfalso
        have hrq := hnd rfl
        subst hrq
        rw [registerF_ftq, if_neg (by simp)] at hnone
        cases hsq : s.ftq <;> rw [hsq] at hnone <;> simp [setQueue] at hnone
    | cancel rq hnd =>
        exfalso
        have hrq := hnd rfl
        subst hrq
        rw [cancelF_ftq, if_neg (by simp)] at hnone
        rw [hnone] at hsome
        cases hsome
    | fire t ht =>
        exfalso
        obtain ⟨rec, hget, harm⟩ := fireEnabled_iff.mp ht
        cases hq : s.ftq with
        | none =>
            rw [hq] at hsome
            cases hsome
        | some q =>
            rw [fireF_eq_of_some hget hq] at hnone
            cases hnone
    | loop h1 h2 =>
        cases hq : s.ftq with
        | none =>
            rw [hq] at hsome
            cases hsome
        | some q =>
            cases q with
            | cons i rest =>
                exfalso
                rw [loopF_eq_pop hq] at hnone
                cases hnone
            | nil => exact ⟨h1, h2, rfl⟩
    | settle i v hr =>
        exfalso
        simp only [settleF] at hnone
        rw [hnone] at hsome
        cases hsome
  · intro s s' hstep hsome hnone
    cases hstep with
    | register period args isInterval cbId rq hnd =>
        exfalso
        rw [registerF_ftl] at hnone
        cases hsl : s.ftl <;> rw [hsl] at hnone <;> simp [setLoop] at hnone
    | cancel rq hnd =>
        exfalso
        rw [cancelF_ftl] at hnone
        rw [hnone] at hsome
        cases hsome
    | fire t ht =>
        exfalso
        obtain ⟨rec, hget, harm⟩ := fireEnabled_iff.mp ht
        cases hq : s.ftq with
        | none =>
            rw [fireF_eq_of_none hget hq] at hnone
            simp only at hnone
            rw [hnone] at hsome
            cases hsome
        | some q =>
            rw [fireF_eq_of_some hget hq] at hnone
            simp only at hnone
            cases hsl : s.ftl with
            | none =>
                rw [hsl] at hsome
                cases hsome
            | some b =>
                rw [hsl] at hnone
                cases b <;> simp at hnone
    | loop h1 h2 =>
        cases hq : s.ftq with
        | none => exact ⟨h1, h2, Or.inr rfl⟩
        | some q =>
            cases q with
            | cons i rest =>
                exfalso
                rw [loopF_eq_pop hq] at hnone
                simp only at hnone
                rw [hnone] at h1
                cases h1
            | nil => exact ⟨h1, h2, Or.inl rfl⟩
    | settle i v hr =>
        exfalso
        simp only [settleF] at hnone
        rw [hnone] at hsome
        cases hsome

/-- Witness for C9 on concrete states: a firing with no queue key enqueues
nothing, and the loop exit on the drained interval queue removes both
keys. -/
theorem claim_C9_witness :
    ((fireF S.init 0).ftq = none ∧ (fireF S.init 0).trace = S.init.trace ∧
      (fireF S.init 0).running = S.init.running) ∧
    ((loopF x4).ftq = none ∧ (loopF x4).ftl = none) ∧
    (x4.ftl = some true ∧ x4.running = none ∧ x4.ftq = some []) := by
  have h := claim_C9
  refine ⟨h.1 S.init 0 (by decide), h.2.1 x4 (by decide) (by decide) (Or.inl (by decide)), ?_⟩
  have hstep : GStep true x4 (loopF x4) := .loop x4 (by decide) (by decide)
  exact h.2.2.1 x4 (loopF x4) hstep (by decide) (by decide)

end CreateSafe

namespace Registration

/-- C3: any positive number of singleton registrations of the same callable
identity before any firing leaves exactly one armed native timer, owned by
that callable and carrying the period and arguments of the last
registration, and exactly one store entry for the callable. -/
theorem claim_C3 (c : RegCallable) (r0 : Nat × Nat) (rest : List (Nat × Nat)) :
    armedOf (regRun c (r0 :: rest))
        = [armedRec c ((r0 :: rest).getLast (by simp))] ∧
    (regRun c (r0 :: rest)).ftc.map Prod.fst = [c] := by
  rw [regRun_canon]
  exact ⟨armedOf_canon c _ _, by simp [canonSt]⟩

theorem registerR_srcmatch {f1 f2 : RegCallable} (hne : f2.ref ≠ f1.ref)
    (hsrc : f2.srcText = f1.srcText) (p a : Nat) (done : List (Nat × Nat))
    (cur : Nat × Nat) :
    registerR f2 p a (canonSt f1 done cur) = canonSt f1 (done ++ [cur]) (p, a) := by
  have hres : resolveKey f2 (canonSt f1 done cur) = f1 := by
    simp only [resolveKey, canonSt]
    rw [List.any_cons]
    have h1 : (f1.ref == f2.ref) = false := by
      simp only [beq_eq_false_iff_ne, ne_eq]
      exact fun hx => hne (hx.symm)
    rw [h1]
    simp only [List.any_nil, Bool.or_false, Bool.false_eq_true, if_false]
    rw [List.find?_cons_of_pos _ (by simp [hsrc])]
  simp only [registerR, hres, destroyR_canon]
  simp [canonSt, clearedOf, armedRec]

/-- C4: in singleton mode two registrations whose callables differ by
reference but share their serialized source text are one identity — the
second registration clears the first timer and arms a fresh one still keyed
by the already-registered reference, instead of creating a second
independent schedule. -/
theorem claim_C4 (f1 f2 : RegCallable) (T1 a1 T2 a2 : Nat)
    (hne : f1.ref ≠ f2.ref) (hsrc : f1.srcText = f2.srcText) :
    armedOf (registerR f2 T2 a2 (registerR f1 T1 a1 RegState.empty))
        = [armedRec f1 (T2, a2)] ∧
    (registerR f2 T2 a2 (registerR f1 T1 a1 RegState.empty)).ftc.map Prod.fst = [f1] ∧
    (registerR f2 T2 a2 (registerR f1 T1 a1 RegState.empty)).timers.get? 0
        = some (clearedRec f1 (T1, a1)) := by
  rw [registerR_empty]
  rw [registerR_srcmatch (fun hx => hne hx.symm) hsrc.symm T2 a2 [] (T1, a1)]
  refine ⟨armedOf_canon f1 _ _, by simp [canonSt], ?_⟩
  simp [canonSt, clearedOf]

/-- Witness for C4 at two concrete reference-distinct, text-equal
callables. -/
theorem claim_C4_witness :
    armedOf (registerR ⟨1, 5⟩ 3 4 (registerR ⟨0, 5⟩ 1 2 RegState.empty))
        = [armedRec ⟨0, 5⟩ (3, 4)] ∧
    (registerR ⟨1, 5⟩ 3 4 (registerR ⟨0, 5⟩ 1 2 RegState.empty)).ftc.map Prod.fst
        = [⟨0, 5⟩] ∧
    (registerR ⟨1, 5⟩ 3 4 (registerR ⟨0, 5⟩ 1 2 RegState.empty)).timers.get? 0
        = some (clearedRec ⟨0, 5⟩ (1, 2)) :=
  claim_C4 ⟨0, 5⟩ ⟨1, 5⟩ 1 2 3 4 (by decide) (by decide)

end Registration

namespace IntervalChain

/-- C10: along any run of one interval schedule of `CreateSafeInterval` or
`CreateSafeIntervalMultiple`, at any instant at most one invocation exists:
one armed native timer or one in-flight invocation, never both and never a
backlog, because the next timer is armed only after the previous invocation
settles. -/
theorem claim_C10 {s : C} (h : CReach s) : armedCount s + runBit s ≤ 1 :=
  creach_inv h

/-- Witness for C10 after fire, settle and a second fire of the chain. -/
theorem claim_C10_witness :
    armedCount (cfireF (csettleF (cfireF C.start 0)) 1)
      + runBit (cfireF (csettleF (cfireF C.start 0)) 1) ≤ 1 := by
  have h1 : CStep C.start (cfireF C.start 0) := .fire C.start 0 (by decide) (by decide)
  have h2 : CStep (cfireF C.start 0) (csettleF (cfireF C.start 0)) :=
    .settle (cfireF C.start 0) 0 (by decide)
  have h3 : CStep (csettleF (cfireF C.start 0))
      (cfireF (csettleF (cfireF C.start 0)) 1) :=
    .fire (csettleF (cfireF C.start 0)) 1 (by decide) (by decide)
  exact claim_C10
    ((((Relation.ReflTransGen.refl.tail h1).tail h2).tail h3))

end IntervalChain
